import Mathlib

/-!
Verification of the progressive-disclosure tool registry and its
schema introspector, shallowly embedded from the TypeScript source
(`tool-registry.ts` and `meta-tools.ts`).

JavaScript `Map` objects are modelled as association lists in insertion
order (`set` on an existing key updates in place, otherwise appends);
plain objects used as string-keyed records are modelled the same way.
Promise-returning handlers are modelled as functions into `Except`,
where `Except.error` is a rejected promise / thrown exception carrying
its message.
-/

/-- JSON-like runtime values (including JavaScript `undefined`). -/
inductive JsonValue : Type where
  | undef : JsonValue
  | null : JsonValue
  | bool (b : Bool) : JsonValue
  | num (n : Int) : JsonValue
  | str (s : String) : JsonValue
  | arr (elems : List JsonValue) : JsonValue
  | obj (fields : List (String × JsonValue)) : JsonValue

/-- A string-keyed record, `Record<string, unknown>` in the source. -/
abbrev ZRecord := List (String × JsonValue)

/-- Does the association list have the key? -/
def mapHasKey {α : Type} (m : List (String × α)) (k : String) : Bool :=
  m.any (fun p => p.1 == k)

/-- JS `Map.set` / property assignment: update in place if the key is
present (keeping its original position), otherwise append. -/
def mapSet {α : Type} (m : List (String × α)) (k : String) (v : α) :
    List (String × α) :=
  if mapHasKey m k then m.map (fun p => if p.1 == k then (k, v) else p)
  else m ++ [(k, v)]

/-- JS `Map.get` / property read: first entry with the key. -/
def mapGet {α : Type} (m : List (String × α)) (k : String) : Option α :=
  (m.find? (fun p => p.1 == k)).map (fun p => p.2)

/-- JS object spread `{...a, ...b}`: keys of `a` in order with values
possibly overridden by `b`, then new keys of `b` appended. -/
def objMerge {α : Type} (a b : List (String × α)) : List (String × α) :=
  b.foldl (fun acc p => mapSet acc p.1 p.2) a

/-- JS `String.prototype.includes` on character lists. -/
def hasSub (hay sub : List Char) : Bool :=
  match hay with
  | [] => sub.isEmpty
  | c :: t => sub.isPrefixOf (c :: t) || hasSub t sub

/-- JS `String.prototype.includes`. -/
def strContains (hay sub : String) : Bool :=
  hasSub hay.toList sub.toList

/-- JS `Array.prototype.join(sep)`. -/
def joinSep (sep : String) : List String → String
  | [] => ""
  | [x] => x
  | x :: xs => x ++ sep ++ joinSep sep xs

/-- JS `String.prototype.toLowerCase`, modelled character-wise. -/
def strToLower (s : String) : String := String.mk (s.toList.map Char.toLower)

/-- Drop the first occurrence of `pat` from the list, as in JS
`String.prototype.replace(pat, "")`. -/
def dropFirstOcc (pat : List Char) : List Char → List Char
  | [] => []
  | c :: t =>
    if pat.isPrefixOf (c :: t) then (c :: t).drop pat.length
    else c :: dropFirstOcc pat t

/-- `name.replace("Zod", "")` from the source's fallback branch. -/
def replaceZod (s : String) : String :=
  String.mk (dropFirstOcc "Zod".toList s.toList)

/-- One entry of a Zod `checks` array: `{kind, value?}`. -/
structure ZCheck : Type where
  kind : String
  value : Option JsonValue

mutual

/-- A value as seen by the introspector: either it has no recognizable
`_def` or it carries one. -/
inductive ZodVal : Type where
  | noDef : ZodVal
  | withDef : ZodDef → ZodVal

/-- The `ZodDef` interface from the source: every slot the introspector
reads, each optional because the two library versions populate
different slots. -/
inductive ZodDef : Type where
  | mk
      (typeName : Option String)
      (typeTag : Option ZTypeSlot)
      (description : Option String)
      (checks : Option (List ZCheck))
      (values : Option (List String))
      (entries : Option (List (String × String)))
      (innerType : Option ZodVal)
      (element : Option ZodVal)
      (shape : Option ShapeRep)
      (defaultValue : Option JsonValue)
      (options : Option (List ZodVal))
      (minLen : Option Int)
      (maxLen : Option Int) : ZodDef

/-- The `type` slot of a def: a string tag (current representation) or
a nested schema value (legacy array item slot). -/
inductive ZTypeSlot : Type where
  | strTag (s : String) : ZTypeSlot
  | schemaTag (z : ZodVal) : ZTypeSlot

/-- The object field shape: a callable (legacy) or a stored value
(current); both yield a record of field schemas. -/
inductive ShapeRep : Type where
  | fnShape (fields : List (String × ZodVal)) : ShapeRep
  | valShape (fields : List (String × ZodVal)) : ShapeRep

end

def ZodDef.typeName : ZodDef → Option String
  | .mk x _ _ _ _ _ _ _ _ _ _ _ _ => x

def ZodDef.typeTag : ZodDef → Option ZTypeSlot
  | .mk _ x _ _ _ _ _ _ _ _ _ _ _ => x

def ZodDef.description : ZodDef → Option String
  | .mk _ _ x _ _ _ _ _ _ _ _ _ _ => x

def ZodDef.checks : ZodDef → Option (List ZCheck)
  | .mk _ _ _ x _ _ _ _ _ _ _ _ _ => x

/-- The string stored in `def.type` if it is a string (`typeof def.type
=== "string"`). -/
def typeTagStr : Option ZTypeSlot → Option String
  | some (.strTag s) => some s
  | _ => none

/-- `def.typeName || (typeof def.type === "string" ? def.type :
undefined)` (an empty `typeName` is falsy in JS). -/
def rawTypeName (d : ZodDef) : Option String :=
  match d.typeName with
  | some s => if s = "" then typeTagStr d.typeTag else some s
  | none => typeTagStr d.typeTag

/-- The v3-name-to-v4-name table from `normalizeZodTypeName`. -/
def v3ToV4 : List (String × String) :=
  [("ZodString", "string"), ("ZodNumber", "number"),
   ("ZodBoolean", "boolean"), ("ZodArray", "array"),
   ("ZodObject", "object"), ("ZodOptional", "optional"),
   ("ZodDefault", "default"), ("ZodEnum", "enum"),
   ("ZodUnion", "union"), ("ZodNullable", "nullable")]

/-- `normalizeZodTypeName` from the source: falsy names become
`undefined`, v3 names map to v4 names, anything else passes through. -/
def normalizeZodTypeName : Option String → Option String
  | none => none
  | some s =>
    if s = "" then none
    else some ((((v3ToV4.find? (fun p => p.1 == s)).map (fun p => p.2))).getD s)

/-- `applyStringChecks` from the source: each check with kind `max`
sets `maxLength`, each with kind `min` sets `minLength`. -/
def applyStringChecks (schema : ZRecord) (checks : Option (List ZCheck)) :
    ZRecord :=
  match checks with
  | none => schema
  | some cs =>
    cs.foldl (fun sch ch =>
      let sch1 :=
        if ch.kind == "max" then mapSet sch "maxLength" (ch.value.getD .undef)
        else sch
      if ch.kind == "min" then mapSet sch1 "minLength" (ch.value.getD .undef)
      else sch1) schema

/-- `handleZodNumber` from the source. -/
def handleZodNumber (checks : Option (List ZCheck)) : ZRecord :=
  (checks.getD []).foldl (fun sch ch =>
    let s1 := if ch.kind == "int" then mapSet sch "type" (.str "integer") else sch
    let s2 :=
      if ch.kind == "min" then mapSet s1 "minimum" (ch.value.getD .undef) else s1
    if ch.kind == "max" then mapSet s2 "maximum" (ch.value.getD .undef) else s2)
    [("type", .str "number")]

/-- Attach `maxItems` then `minItems` from the length-bound slots, as
the source does after building the array record. -/
def applyArrayBounds (base : ZRecord) (mnl mxl : Option Int) : ZRecord :=
  match mnl with
  | some m =>
    mapSet (match mxl with
      | some m2 => mapSet base "maxItems" (.num m2)
      | none => base) "minItems" (.num m)
  | none =>
    match mxl with
    | some m2 => mapSet base "maxItems" (.num m2)
    | none => base

/-- `handleZodArray` from the source: `{type: "array", items}` with
`{type: "unknown"}` when no item schema was resolved, then the length
bounds; the item schema (`def.element || (typeof def.type === "object"
? def.type : undefined)`, introspected) is resolved at the dispatch
site in this embedding. -/
def handleZodArray (items : Option ZRecord) (mnl mxl : Option Int) : ZRecord :=
  applyArrayBounds
    [("type", .str "array"),
     ("items", .obj (items.getD [("type", .str "unknown")]))] mnl mxl

mutual

/-- `zodToJsonSchema` from the source: read `_def`, normalize the tag,
dispatch, then copy a non-empty free-text description. -/
def zodToJsonSchema : ZodVal → ZRecord
  | .noDef => [("type", .str "unknown")]
  | .withDef d =>
    let schema := buildSchemaForType (normalizeZodTypeName (rawTypeName d)) d
    match d.description with
    | some ds => if ds = "" then schema else mapSet schema "description" (.str ds)
    | none => schema
termination_by v => 3 * sizeOf v + 1
decreasing_by all_goals (simp_wf; try omega)

/-- `buildSchemaForType` from the source: dispatch on the canonical
kind, with the lowercased prefix-replaced fallback. -/
def buildSchemaForType : Option String → ZodDef → ZRecord
  | tn, .mk _tnm tt _dsc cks vls ents inner elem shp dfl opts mnl mxl =>
    if tn = some "string" then applyStringChecks [("type", .str "string")] cks
    else if tn = some "number" then handleZodNumber cks
    else if tn = some "boolean" then [("type", .str "boolean")]
    else if tn = some "array" then
      handleZodArray ((introspectOpt elem).or (introspectSlot tt)) mnl mxl
    else if tn = some "object" then handleZodObject shp
    else if tn = some "optional" then
      handleZodWrapper inner [("optional", .bool true)]
    else if tn = some "default" then
      handleZodWrapper inner [("default", dfl.getD .undef)]
    else if tn = some "enum" then
      [("type", .str "string"),
       ("enum",
        match vls with
        | some l => .arr (l.map .str)
        | none =>
          match ents with
          | some es => .arr (es.map (fun p => .str p.1))
          | none => .arr [])]
    else if tn = some "union" then
      [("oneOf", .arr (match opts with | some l => mapOptions l | none => []))]
    else if tn = some "nullable" then
      handleZodWrapper inner [("nullable", .bool true)]
    else
      [("type", .str (match tn with
        | some s => strToLower (replaceZod s)
        | none => "unknown"))]
termination_by _tn d => 3 * sizeOf d
decreasing_by all_goals (simp_wf; try omega)

/-- Introspect an optional schema value (`undefined` stays
`undefined`). -/
def introspectOpt : Option ZodVal → Option ZRecord
  | some z => some (zodToJsonSchema z)
  | none => none
termination_by o => 3 * sizeOf o + 2
decreasing_by all_goals (simp_wf; try omega)

/-- Introspect the schema stored in the `type` slot, if any (`typeof
def.type === "object"`). -/
def introspectSlot : Option ZTypeSlot → Option ZRecord
  | some t => introspectSlotCore t
  | none => none
termination_by o => 3 * sizeOf o + 2
decreasing_by all_goals (simp_wf; try omega)

def introspectSlotCore : ZTypeSlot → Option ZRecord
  | .schemaTag z => some (zodToJsonSchema z)
  | .strTag _ => none
termination_by t => 3 * sizeOf t + 1
decreasing_by all_goals (simp_wf; try omega)

/-- `handleZodObject` from the source: the shape may be a callable or a
stored value; both yield the field record, serialized recursively. -/
def handleZodObject (shp : Option ShapeRep) : ZRecord :=
  match shp with
  | some (.fnShape fs) => [("type", .str "object"), ("properties", .obj (serializeSchema fs))]
  | some (.valShape fs) => [("type", .str "object"), ("properties", .obj (serializeSchema fs))]
  | none => [("type", .str "object"), ("properties", .obj [])]
termination_by 3 * sizeOf shp + 2
decreasing_by all_goals (simp_wf; try omega)

/-- `handleZodWrapper` from the source: introspect the inner schema (or
fall back to `unknown`) and spread the extra properties over it. -/
def handleZodWrapper (inner : Option ZodVal) (extra : ZRecord) : ZRecord :=
  let schema := match inner with
    | some z => zodToJsonSchema z
    | none => [("type", .str "unknown")]
  objMerge schema extra
termination_by 3 * sizeOf inner + 2
decreasing_by all_goals (simp_wf; try omega)

/-- `serializeSchema` from the source: introspect each field. -/
def serializeSchema : List (String × ZodVal) → ZRecord
  | [] => []
  | (k, v) :: rest => (k, .obj (zodToJsonSchema v)) :: serializeSchema rest
termination_by fs => 3 * sizeOf fs
decreasing_by all_goals (simp_wf; try omega)

/-- `def.options?.map((opt) => this.zodToJsonSchema(opt))`. -/
def mapOptions : List ZodVal → List JsonValue
  | [] => []
  | z :: rest => .obj (zodToJsonSchema z) :: mapOptions rest
termination_by l => 3 * sizeOf l
decreasing_by all_goals (simp_wf; try omega)

end

/-! ## The tool registry (`ToolRegistry` from the source) -/

/-- `ToolInfo` from the source. -/
structure ToolInfo : Type where
  name : String
  title : String
  description : String
  category : String
  inputSchema : List (String × ZodVal)
  outputSchema : List (String × ZodVal)

/-- The structured result a tool handler resolves to: the `text`
contents, the optional structured payload, the optional error flag. -/
structure HandlerResult : Type where
  content : List String
  structuredContent : Option (List (String × JsonValue))
  isError : Option Bool

/-- Parameters passed to a handler (`Record<string, unknown>`). -/
abbrev Params := List (String × JsonValue)

/-- `ToolHandler`: an async function; `Except.error` models a rejected
promise or thrown exception carrying its message. -/
abbrev ToolHandler := Params → Except String HandlerResult

/-- `RegisteredTool` from the source. -/
structure RegisteredTool : Type where
  info : ToolInfo
  handler : ToolHandler

/-- `CategoryInfo` from the source. -/
structure CategoryInfo : Type where
  name : String
  description : String
  toolCount : Nat
deriving DecidableEq

/-- `ToolSummary` from the source. -/
structure ToolSummary : Type where
  name : String
  description : String
deriving DecidableEq

/-- The three insertion-ordered maps of `ToolRegistry`. -/
structure ToolRegistry : Type where
  tools : List (String × RegisteredTool)
  categories : List (String × CategoryInfo)
  toolsByCategory : List (String × List String)

/-- The hardcoded category seed list (name, description) in source
order. -/
def categoryDefs : List (String × String) :=
  [("repositories",
    "Search, create, fork repositories. Get file contents, push files, manage branches."),
   ("merge-requests",
    "Create, update, merge MRs. List MRs, get diffs, manage discussions and threads."),
   ("issues",
    "Create, update, delete issues. List issues, manage issue links and discussions."),
   ("pipelines",
    "List, create, retry, cancel pipelines. Get pipeline jobs and their output."),
   ("projects",
    "Get project details, list projects, manage project members and labels."),
   ("commits", "List commits, get commit details and diffs."),
   ("namespaces", "List, get, and verify namespaces (groups and users)."),
   ("milestones",
    "Create, edit, delete milestones. Get milestone issues and merge requests."),
   ("wiki", "List, create, update, delete wiki pages."),
   ("releases",
    "List, create, update, delete releases. Download release assets."),
   ("users", "Get user details by username."),
   ("search",
    "Global, project, and group search across issues, merge requests, code, commits, and more."),
   ("notes",
    "Create and manage notes (comments) on issues and merge requests. Draft notes for MRs."),
   ("events", "List user and project events/activity."),
   ("groups", "List group projects and iterations.")]

/-- The seeded category names in seeding order. -/
def seededNames : List String := categoryDefs.map (fun p => p.1)

/-- A freshly constructed registry: categories seeded with count 0 and
empty per-category name lists, no tools (`constructor` +
`initializeCategories`). -/
def freshRegistry : ToolRegistry :=
  { tools := []
  , categories := categoryDefs.map (fun p => (p.1, ⟨p.1, p.2, 0⟩))
  , toolsByCategory := categoryDefs.map (fun p => (p.1, [])) }

/-- `registerTool` from the source: store (overwriting) in the main
index; if the category key exists, append the name to its list and,
if the category info exists, bump its count. -/
def registerTool (reg : ToolRegistry) (name category title description : String)
    (inS outS : List (String × ZodVal)) (handler : ToolHandler) : ToolRegistry :=
  let info : ToolInfo := ⟨name, title, description, category, inS, outS⟩
  let tools := mapSet reg.tools name ⟨info, handler⟩
  match mapGet reg.toolsByCategory category with
  | none => { reg with tools := tools }
  | some lst =>
    let tbc := mapSet reg.toolsByCategory category (lst ++ [name])
    match mapGet reg.categories category with
    | none => { tools := tools, categories := reg.categories, toolsByCategory := tbc }
    | some ci =>
      { tools := tools
      , categories := mapSet reg.categories category ⟨ci.name, ci.description, ci.toolCount + 1⟩
      , toolsByCategory := tbc }

/-- `listCategories` from the source: all category infos with a
positive count, in map iteration order. -/
def listCategories (reg : ToolRegistry) : List CategoryInfo :=
  (reg.categories.map (fun p => p.2)).filter (fun c => decide (0 < c.toolCount))

/-- `listTools` from the source: look the category up lowercased; map
each stored name to its summary (`tool?.info.description || ""`). -/
def listTools (reg : ToolRegistry) (category : String) : List ToolSummary :=
  match mapGet reg.toolsByCategory (strToLower category) with
  | none => []
  | some names =>
    names.map (fun n =>
      ⟨n, match mapGet reg.tools n with
          | some t => t.info.description
          | none => ""⟩)

/-- One search hit before truncation: its score and its summary. -/
structure ScoredTool : Type where
  score : Nat
  tool : ToolSummary
deriving DecidableEq

/-- The per-tool search score: +3 for a (case-insensitive) substring
match on the name, +2 on the title, +1 on the description. -/
def toolScore (ql : String) (name : String) (info : ToolInfo) : Nat :=
  (if strContains (strToLower name) ql then 3 else 0) +
  (if strContains (strToLower info.title) ql then 2 else 0) +
  (if strContains (strToLower info.description) ql then 1 else 0)

/-- The scored positive-score hits in map iteration order (the loop
that pushes `{score, tool}` when `score > 0`). -/
def scoredResults (reg : ToolRegistry) (q : String) : List ScoredTool :=
  reg.tools.filterMap (fun p =>
    let s := toolScore (strToLower q) p.1 p.2.info
    if 0 < s then some ⟨s, ⟨p.1, p.2.info.description⟩⟩ else none)

/-- Stable insertion into a descending-by-score list: a new element
goes before equal scores later in the list, as a JS stable
`sort((a, b) => b.score - a.score)` would order them. -/
def insertDesc (x : ScoredTool) : List ScoredTool → List ScoredTool
  | [] => [x]
  | y :: ys => if x.score < y.score then y :: insertDesc x ys else x :: y :: ys

/-- Stable descending-by-score sort (the model of the JS stable
`Array.prototype.sort` with comparator `b.score - a.score`). -/
def sortDesc : List ScoredTool → List ScoredTool
  | [] => []
  | x :: xs => insertDesc x (sortDesc xs)

/-- `searchTools` from the source: score, sort descending (stable),
truncate to `limit`, keep the summaries. -/
def searchTools (reg : ToolRegistry) (q : String) (lim : Nat) : List ToolSummary :=
  ((sortDesc (scoredResults reg q)).take lim).map (fun r => r.tool)

/-- `getToolSchema` from the source. -/
def getToolSchema (reg : ToolRegistry) (toolName : String) : Option ToolInfo :=
  (mapGet reg.tools toolName).map (fun t => t.info)

/-- `getHandler` from the source. -/
def getHandler (reg : ToolRegistry) (toolName : String) : Option ToolHandler :=
  (mapGet reg.tools toolName).map (fun t => t.handler)

/-- `hasTool` from the source. -/
def hasTool (reg : ToolRegistry) (toolName : String) : Bool :=
  (mapGet reg.tools toolName).isSome

/-- `getAllToolNames` from the source. -/
def getAllToolNames (reg : ToolRegistry) : List String :=
  reg.tools.map (fun p => p.1)

/-! ## The meta-operations (`registerMetaTools` from the source) -/

/-- The result shape of the `list_tools` meta-operation: its rendered
text, its structured `{tools}` payload, and the optional error flag. -/
structure ListToolsResult : Type where
  text : String
  structuredTools : List ToolSummary
  isError : Option Bool

/-- The `list_tools` meta-operation handler: empty listing yields an
error-flagged result whose text names the valid categories; otherwise
a success result carrying the summaries. -/
def list_tools (reg : ToolRegistry) (category : String) : ListToolsResult :=
  let tools := listTools reg category
  if tools.isEmpty then
    { text := "Category \x27" ++ category ++
        "\x27 not found or has no tools. Available categories: " ++
        joinSep ", " ((listCategories reg).map (fun c => c.name))
    , structuredTools := []
    , isError := some true }
  else
    { text := "Tools in " ++ category ++ ":\n" ++
        joinSep "\n" (tools.map (fun t => "- **" ++ t.name ++ "**: " ++ t.description))
    , structuredTools := tools
    , isError := none }

/-- The `execute_tool` meta-operation handler: unknown names produce an
error-flagged result without touching the registry; a throwing or
rejecting handler is caught and converted into an error-flagged result
carrying the failure message. The returned registry is the (unchanged)
registry, making the absence of mutation explicit. -/
def execute_tool (reg : ToolRegistry) (toolName : String) (params : Params) :
    ToolRegistry × HandlerResult :=
  match getHandler reg toolName with
  | none =>
    (reg,
     { content := ["Tool \x27" ++ toolName ++
         "\x27 not found. Use search_tools or list_tools to find valid tool names."]
     , structuredContent :=
         some [("success", .bool false),
               ("error", .str ("Tool \x27" ++ toolName ++ "\x27 not found"))]
     , isError := some true })
  | some h =>
    match h params with
    | .ok result => (reg, result)
    | .error msg =>
      (reg,
       { content := ["Tool execution failed: " ++ msg]
       , structuredContent :=
           some [("success", .bool false), ("error", .str msg)]
       , isError := some true })

/-! ## Schema concepts encodable in both library representations -/

/-- A schema concept expressible in both the legacy and the current
representation: the canonical vocabulary of the introspector with its
sub-payloads. -/
inductive SchemaConcept : Type where
  | cstr (checks : List ZCheck) : SchemaConcept
  | cnum (checks : List ZCheck) : SchemaConcept
  | cbool : SchemaConcept
  | carr (item : SchemaConcept) (mn mx : Option Int) : SchemaConcept
  | cobj (fields : List (String × SchemaConcept)) : SchemaConcept
  | copt (inner : SchemaConcept) : SchemaConcept
  | cdefault (inner : SchemaConcept) (dv : JsonValue) : SchemaConcept
  | cenum (lits : List String) : SchemaConcept
  | cunion (opts : List SchemaConcept) : SchemaConcept
  | cnullable (inner : SchemaConcept) : SchemaConcept

mutual

/-- The legacy (v3) encoding: internal tag in `typeName` (`ZodString`
style), array item in the `type` slot, object shape as a callable,
enum literals in `values`. -/
def encodeV3 : SchemaConcept → ZodVal
  | .cstr cks =>
    .withDef (.mk (some "ZodString") none none (some cks) none none none none none none none none none)
  | .cnum cks =>
    .withDef (.mk (some "ZodNumber") none none (some cks) none none none none none none none none none)
  | .cbool =>
    .withDef (.mk (some "ZodBoolean") none none none none none none none none none none none none)
  | .carr item mn mx =>
    .withDef (.mk (some "ZodArray") (some (.schemaTag (encodeV3 item))) none none none none none none none none none mn mx)
  | .cobj fields =>
    .withDef (.mk (some "ZodObject") none none none none none none none (some (.fnShape (encodeV3Fields fields))) none none none none)
  | .copt inner =>
    .withDef (.mk (some "ZodOptional") none none none none none (some (encodeV3 inner)) none none none none none none)
  | .cdefault inner dv =>
    .withDef (.mk (some "ZodDefault") none none none none none (some (encodeV3 inner)) none none (some dv) none none none)
  | .cenum lits =>
    .withDef (.mk (some "ZodEnum") none none none (some lits) none none none none none none none none)
  | .cunion opts =>
    .withDef (.mk (some "ZodUnion") none none none none none none none none none (some (encodeV3List opts)) none none)
  | .cnullable inner =>
    .withDef (.mk (some "ZodNullable") none none none none none (some (encodeV3 inner)) none none none none none none)

def encodeV3Fields : List (String × SchemaConcept) → List (String × ZodVal)
  | [] => []
  | (k, c) :: rest => (k, encodeV3 c) :: encodeV3Fields rest

def encodeV3List : List SchemaConcept → List ZodVal
  | [] => []
  | c :: rest => encodeV3 c :: encodeV3List rest

end

mutual

/-- The current (v4) encoding: internal tag as a lowercase string in
the `type` slot, array item in `element`, object shape stored as a
value, enum literals as the keys of `entries`. -/
def encodeV4 : SchemaConcept → ZodVal
  | .cstr cks =>
    .withDef (.mk none (some (.strTag "string")) none (some cks) none none none none none none none none none)
  | .cnum cks =>
    .withDef (.mk none (some (.strTag "number")) none (some cks) none none none none none none none none none)
  | .cbool =>
    .withDef (.mk none (some (.strTag "boolean")) none none none none none none none none none none none)
  | .carr item mn mx =>
    .withDef (.mk none (some (.strTag "array")) none none none none none (some (encodeV4 item)) none none none mn mx)
  | .cobj fields =>
    .withDef (.mk none (some (.strTag "object")) none none none none none none (some (.valShape (encodeV4Fields fields))) none none none none)
  | .copt inner =>
    .withDef (.mk none (some (.strTag "optional")) none none none none (some (encodeV4 inner)) none none none none none none)
  | .cdefault inner dv =>
    .withDef (.mk none (some (.strTag "default")) none none none none (some (encodeV4 inner)) none none (some dv) none none none)
  | .cenum lits =>
    .withDef (.mk none (some (.strTag "enum")) none none none (some (lits.map (fun s => (s, s)))) none none none none none none none)
  | .cunion opts =>
    .withDef (.mk none (some (.strTag "union")) none none none none none none none none (some (encodeV4List opts)) none none)
  | .cnullable inner =>
    .withDef (.mk none (some (.strTag "nullable")) none none none none (some (encodeV4 inner)) none none none none none none)

def encodeV4Fields : List (String × SchemaConcept) → List (String × ZodVal)
  | [] => []
  | (k, c) :: rest => (k, encodeV4 c) :: encodeV4Fields rest

def encodeV4List : List SchemaConcept → List ZodVal
  | [] => []
  | c :: rest => encodeV4 c :: encodeV4List rest

end

mutual

/-- Well-formedness of a concept: enum literal lists have no
duplicates (so that the `entries` object of the current representation
has one key per literal), recursively. -/
def conceptWF : SchemaConcept → Bool
  | .cstr _ => true
  | .cnum _ => true
  | .cbool => true
  | .carr item _ _ => conceptWF item
  | .cobj fields => conceptWFFields fields
  | .copt inner => conceptWF inner
  | .cdefault inner _ => conceptWF inner
  | .cenum lits => decide lits.Nodup
  | .cunion opts => conceptWFList opts
  | .cnullable inner => conceptWF inner

def conceptWFFields : List (String × SchemaConcept) → Bool
  | [] => true
  | (_, c) :: rest => conceptWF c && conceptWFFields rest

def conceptWFList : List SchemaConcept → Bool
  | [] => true
  | c :: rest => conceptWF c && conceptWFList rest

end

/-! ## Specification-side description of search -/

/-- Concatenation of the score buckets of `l`, highest score first,
each bucket in `l`'s order. -/
def bucketsBy (ks : List Nat) (l : List ScoredTool) : List ScoredTool :=
  ks.flatMap (fun k => l.filter (fun r => r.score == k))

/-- Modelled from the spec's words for `search`: the positive-score
operations (weights 3/2/1 on name/title/description) in descending
score order with ties in the registry's iteration order — buckets of
equal score, highest bucket first — truncated to `limit`. -/
def searchToolsSpec (reg : ToolRegistry) (q : String) (lim : Nat) :
    List ToolSummary :=
  ((bucketsBy [6, 5, 4, 3, 2, 1] (scoredResults reg q)).take lim).map
    (fun r => r.tool)

/-! ## Association-map lemmas -/

/-- The per-entry update applied by `mapSet` when the key is present. -/
def updEntry {α : Type} (k : String) (v : α) (p : String × α) : String × α :=
  if p.1 == k then (k, v) else p

/-! ## Reachable registry states and their invariants -/

/-- Registry states reachable in the source: construction (which seeds
the categories) followed by any sequence of registrations. -/
inductive Reachable : ToolRegistry → Prop where
  | fresh : Reachable freshRegistry
  | step (reg : ToolRegistry) (name category title description : String)
      (inS outS : List (String × ZodVal)) (handler : ToolHandler) :
      Reachable reg →
      Reachable (registerTool reg name category title description inS outS handler)

/-- The stored `toolCount` of a category (0 if the category is
absent). -/
def catCount (reg : ToolRegistry) (n : String) : Nat :=
  ((mapGet reg.categories n).map (fun c => c.toolCount)).getD 0

/-- The stored per-category operation-name list ([] if the category is
absent). -/
def catList (reg : ToolRegistry) (n : String) : List String :=
  (mapGet reg.toolsByCategory n).getD []

/-- Structural invariant of every reachable registry: the category
maps keep exactly the seeded keys, category infos carry their own key
as name, the main index has no duplicate keys, and every seeded
category's stored count equals the length of its name list. -/
def RegInv (reg : ToolRegistry) : Prop :=
  reg.categories.map (fun p => p.1) = seededNames ∧
  (∀ p ∈ reg.categories, (p.2).name = p.1) ∧
  reg.toolsByCategory.map (fun p => p.1) = seededNames ∧
  (reg.tools.map (fun p => p.1)).Nodup ∧
  (∀ n ∈ seededNames, catCount reg n = (catList reg n).length)

/-! ## String-check fold lemmas -/

/-- The value of the last check of the given kind (the one whose
assignment wins), if any. -/
def lastCheckVal (kind : String) (cs : List ZCheck) : Option JsonValue :=
  (cs.reverse.find? (fun ch => ch.kind == kind)).map (fun ch => ch.value.getD .undef)

/-- One step of the `applyStringChecks` fold. -/
def stepCheck (sch : ZRecord) (ch : ZCheck) : ZRecord :=
  let sch1 :=
    if ch.kind == "max" then mapSet sch "maxLength" (ch.value.getD .undef)
    else sch
  if ch.kind == "min" then mapSet sch1 "minLength" (ch.value.getD .undef)
  else sch1

/-- A concrete registry holding one tool whose handler always
rejects. -/
def throwingHandler : ToolHandler := fun _ => .error "boom"

def regWithThrower : ToolRegistry :=
  registerTool freshRegistry "thrower" "issues" "Thrower" "always fails" [] [] throwingHandler

/-- A handler that always succeeds, used for concrete registries. -/
def okHandler : ToolHandler := fun _ => .ok ⟨["ok"], none, none⟩

def regOneIssue : ToolRegistry :=
  registerTool freshRegistry "tool_a" "issues" "Tool A" "issue helper" [] [] okHandler

/-- The counterexample state: `tool_a` registered under the seeded
category `issues`, then `tool_b` registered under the unseeded
category name `ISSUES`. -/
def regPartitionCex : ToolRegistry :=
  registerTool
    (registerTool freshRegistry "tool_a" "issues" "Tool A" "descA" [] [] okHandler)
    "tool_b" "ISSUES" "Tool B" "descB" [] [] okHandler

/-- A tool registered under the unseeded category `FOO`. -/
def regUnseeded : ToolRegistry :=
  registerTool freshRegistry "lonely" "FOO" "Lonely" "desc lonely" [] [] okHandler

def regDouble : ToolRegistry :=
  registerTool
    (registerTool freshRegistry "dup" "issues" "T1" "D1" [] [] okHandler)
    "dup" "issues" "T2" "D2" [] [] okHandler

/-- A legacy-representation optional wrapper around an arbitrary inner
schema value. -/
def optionalWrapV3 (inner : ZodVal) : ZodVal :=
  .withDef (.mk (some "ZodOptional") none none none none none (some inner) none none none none none none)

/-- A current-representation optional wrapper around an arbitrary
inner schema value. -/
def optionalWrapV4 (inner : ZodVal) : ZodVal :=
  .withDef (.mk none (some (.strTag "optional")) none none none none (some inner) none none none none none none)

/-- The concrete checks list used as witness input. -/
def witnessChecks : List ZCheck :=
  [⟨"min", some (.num 2)⟩, ⟨"max", some (.num 5)⟩]

/-- The canonical vocabulary recognized by the dispatcher. -/
def canonicalKinds : List String :=
  ["string", "number", "boolean", "array", "object", "optional", "default",
   "enum", "union", "nullable"]

/-- Modelled from the spec's words for the fallback: "the lowercased
kind name with any library-name prefix stripped" — strip a leading
`Zod` if present, then lowercase. (The code instead removes the first
occurrence of `Zod` anywhere in the name.) -/
def specFallbackType (k : String) : String :=
  strToLower (if "Zod".toList.isPrefixOf k.toList then String.mk (k.toList.drop 3) else k)

/-- A value whose definition carries the unrecognized kind name
`FooZod`, where `Zod` occurs but not as a prefix. -/
def fooZodVal : ZodVal :=
  .withDef (.mk (some "FooZod") none none none none none none none none none none none none)

/-- The record built by the array handler once the item schema is
resolved. -/
def arrayRecord (items : ZRecord) (mn mx : Option Int) : ZRecord :=
  applyArrayBounds [("type", .str "array"), ("items", .obj items)] mn mx

lemma filter_cons_pos {α : Type} (p : α → Bool) (a : α) (l : List α)
    (h : p a = true) : List.filter p (a :: l) = a :: List.filter p l := by
  simp [List.filter, h]

lemma filter_cons_neg {α : Type} (p : α → Bool) (a : α) (l : List α)
    (h : p a = false) : List.filter p (a :: l) = List.filter p l := by
  simp [List.filter, h]

lemma insertDesc_front (x : ScoredTool) (L : List ScoredTool)
    (h : ∀ y ∈ L, y.score ≤ x.score) : insertDesc x L = x :: L := by
  cases L with
  | nil => rfl
  | cons y ys =>
    have : ¬ x.score < y.score := Nat.not_lt.mpr (h y (by simp))
    simp [insertDesc, this]

lemma insertDesc_append (x : ScoredTool) (A B : List ScoredTool)
    (h : ∀ y ∈ A, x.score < y.score) :
    insertDesc x (A ++ B) = A ++ insertDesc x B := by
  induction A with
  | nil => rfl
  | cons a as ih =>
    have ha : x.score < a.score := h a (by simp)
    have ih2 := ih (fun y hy => h y (by simp [hy]))
    simp only [List.cons_append, insertDesc, if_pos ha, List.append_eq]
    rw [ih2]

lemma mem_bucketsBy_score (ks : List Nat) (l : List ScoredTool)
    (y : ScoredTool) (hy : y ∈ bucketsBy ks l) : y.score ∈ ks := by
  simp only [bucketsBy, List.mem_flatMap, List.mem_filter] at hy
  obtain ⟨k, hk, _, hs⟩ := hy
  have hks : y.score = k := by simpa using hs
  rw [hks]
  exact hk

lemma insertDesc_bucketsBy (ks : List Nat) :
    ∀ (l : List ScoredTool) (x : ScoredTool),
      ks.Pairwise (fun a b => b < a) → x.score ∈ ks →
      insertDesc x (bucketsBy ks l) = bucketsBy ks (x :: l) := by
  induction ks with
  | nil => intro l x _ hx; simp at hx
  | cons k ks ih =>
    intro l x hp hx
    have hpk : ∀ j ∈ ks, j < k := fun j hj => List.rel_of_pairwise_cons hp hj
    rcases List.mem_cons.mp hx with hxk | hxk
    · have hall : ∀ y ∈ bucketsBy (k :: ks) l, y.score ≤ x.score := by
        intro y hy
        have := mem_bucketsBy_score _ _ _ hy
        rcases List.mem_cons.mp this with h1 | h1
        · omega
        · have := hpk _ h1; omega
      rw [insertDesc_front x _ hall]
      have hx1 : ((fun r : ScoredTool => r.score == k) x) = true := by simp [hxk]
      have hrhs : bucketsBy (k :: ks) (x :: l) = x :: bucketsBy (k :: ks) l := by
        simp only [bucketsBy, List.flatMap_cons]
        rw [filter_cons_pos (fun r : ScoredTool => r.score == k) x l hx1]
        have htail : (ks.flatMap fun j => List.filter (fun r => r.score == j) (x :: l)) =
            ks.flatMap fun j => List.filter (fun r => r.score == j) l := by
          refine List.flatMap_congr (fun j hj => ?_)
          refine filter_cons_neg (fun r : ScoredTool => r.score == j) x l ?_
          have := hpk _ hj
          simp
          omega
        rw [htail, List.cons_append]
      rw [hrhs]
    · have hk : x.score < k := hpk _ hxk
      have hxne : ((fun r : ScoredTool => r.score == k) x) = false := by simp; omega
      simp only [bucketsBy, List.flatMap_cons]
      rw [insertDesc_append x _ _ (by
        intro y hy
        have : y.score = k := by
          have := List.mem_filter.mp hy
          simpa using this.2
        omega)]
      have hih := ih l x hp.of_cons hxk
      simp only [bucketsBy] at hih
      rw [hih, filter_cons_neg (fun r : ScoredTool => r.score == k) x l hxne]

lemma sortDesc_eq_bucketsBy (ks : List Nat)
    (hp : ks.Pairwise (fun a b => b < a)) :
    ∀ l : List ScoredTool, (∀ y ∈ l, y.score ∈ ks) →
      sortDesc l = bucketsBy ks l := by
  intro l
  induction l with
  | nil => intro _; simp [sortDesc, bucketsBy]
  | cons x xs ih =>
    intro h
    have hx : x.score ∈ ks := h x (by simp)
    rw [sortDesc, ih (fun y hy => h y (by simp [hy])),
      insertDesc_bucketsBy ks xs x hp hx]

lemma toolScore_le_six (ql name : String) (info : ToolInfo) :
    toolScore ql name info ≤ 6 := by
  unfold toolScore
  split <;> split <;> split <;> omega

lemma scoredResults_score_bounds (reg : ToolRegistry) (q : String) :
    ∀ r ∈ scoredResults reg q, 0 < r.score ∧ r.score ≤ 6 := by
  intro r hr
  simp only [scoredResults, List.mem_filterMap] at hr
  obtain ⟨p, _, hp⟩ := hr
  by_cases h : 0 < toolScore (strToLower q) p.1 p.2.info
  · simp only [if_pos h, Option.some.injEq] at hp
    subst hp
    exact ⟨h, toolScore_le_six _ _ _⟩
  · simp [if_neg h] at hp

lemma mapSet_eq {α : Type} (m : List (String × α)) (k : String) (v : α) :
    mapSet m k v =
      if mapHasKey m k then m.map (updEntry k v) else m ++ [(k, v)] := rfl

lemma mapHasKey_iff {α : Type} (m : List (String × α)) (k : String) :
    mapHasKey m k = true ↔ k ∈ m.map (fun p => p.1) := by
  simp [mapHasKey, List.any_eq_true, List.mem_map]

lemma find?_key_none {α : Type} (m : List (String × α)) (k : String)
    (h : mapHasKey m k = false) : m.find? (fun p => p.1 == k) = none := by
  rw [List.find?_eq_none]
  intro p hp
  simp only [beq_iff_eq]
  intro he
  have : mapHasKey m k = true := by
    simp only [mapHasKey, List.any_eq_true]
    exact ⟨p, hp, by simp [he]⟩
  rw [h] at this
  exact Bool.false_ne_true this

lemma mapGet_eq_none_of_not_mem {α : Type} (m : List (String × α)) (k : String)
    (h : k ∉ m.map (fun p => p.1)) : mapGet m k = none := by
  unfold mapGet
  rw [find?_key_none]
  · rfl
  · cases hh : mapHasKey m k with
    | false => rfl
    | true => exact absurd ((mapHasKey_iff m k).mp hh) h

lemma find?_updated_self {α : Type} (k : String) (v : α) :
    ∀ t : List (String × α), mapHasKey t k = true →
      List.find? (fun p => p.1 == k) (t.map (updEntry k v)) = some (k, v) := by
  intro t
  induction t with
  | nil => intro h; simp [mapHasKey] at h
  | cons p t ih =>
    intro h
    cases hp : (p.1 == k) with
    | true =>
      have : updEntry k v p = (k, v) := by simp [updEntry, hp]
      simp [List.find?, this]
    | false =>
      have hupd : updEntry k v p = p := by simp [updEntry, hp]
      have ht : mapHasKey t k = true := by
        simpa [mapHasKey, List.any_cons, hp] using h
      simp only [List.map_cons, List.find?, hupd, hp]
      exact ih ht

lemma find?_updated_other {α : Type} (k k2 : String) (v : α) (hne : k2 ≠ k) :
    ∀ t : List (String × α),
      List.find? (fun p => p.1 == k2) (t.map (updEntry k v)) =
        List.find? (fun p => p.1 == k2) t := by
  intro t
  induction t with
  | nil => rfl
  | cons p t ih =>
    cases hp : (p.1 == k) with
    | true =>
      have hpk : p.1 = k := by simpa using hp
      have hupd : updEntry k v p = (k, v) := by simp [updEntry, hp]
      have h1 : (k == k2) = false := by
        simp only [beq_eq_false_iff_ne, ne_eq]
        exact fun he => hne he.symm
      have h2 : (p.1 == k2) = false := by rw [hpk]; exact h1
      simp only [List.map_cons, List.find?, hupd, h1, h2]
      exact ih
    | false =>
      have hupd : updEntry k v p = p := by simp [updEntry, hp]
      cases hp2 : (p.1 == k2) with
      | true => simp [List.find?, hupd, hp2]
      | false =>
        simp only [List.map_cons, List.find?, hupd, hp2]
        exact ih

lemma mapGet_mapSet {α : Type} (m : List (String × α)) (k k2 : String) (v : α) :
    mapGet (mapSet m k v) k2 = if k2 = k then some v else mapGet m k2 := by
  by_cases hk : mapHasKey m k = true
  · rw [mapSet_eq, if_pos hk]
    unfold mapGet
    by_cases h2 : k2 = k
    · rw [h2, find?_updated_self k v m hk]
      simp
    · rw [find?_updated_other k k2 v h2 m]
      simp [h2]
  · have hk2 : mapHasKey m k = false := by
      cases hh : mapHasKey m k with
      | true => exact absurd hh hk
      | false => rfl
    rw [mapSet_eq, if_neg hk]
    unfold mapGet
    rw [List.find?_append]
    by_cases h2 : k2 = k
    · rw [h2, find?_key_none m k hk2]
      simp [List.find?]
    · have hsing : List.find? (fun p => p.1 == k2) [(k, v)] = none := by
        have : (k == k2) = false := by
          simp only [beq_eq_false_iff_ne, ne_eq]
          exact fun he => h2 he.symm
        simp [List.find?, this]
      rw [hsing]
      simp [h2]

lemma mapGet_set_self {α : Type} (m : List (String × α)) (k : String) (v : α) :
    mapGet (mapSet m k v) k = some v := by
  rw [mapGet_mapSet]
  simp

lemma mapGet_set_other {α : Type} (m : List (String × α)) (k k2 : String) (v : α)
    (h : k2 ≠ k) : mapGet (mapSet m k v) k2 = mapGet m k2 := by
  rw [mapGet_mapSet]
  simp [h]

lemma mapSet_keys_of_has {α : Type} (m : List (String × α)) (k : String) (v : α)
    (h : mapHasKey m k = true) :
    (mapSet m k v).map (fun p => p.1) = m.map (fun p => p.1) := by
  rw [mapSet_eq, if_pos h]
  rw [List.map_map]
  apply List.map_congr_left
  intro q _
  cases hqk : (q.1 == k) with
  | true =>
    have : q.1 = k := by simpa using hqk
    simp [Function.comp, updEntry, hqk, this]
  | false => simp [Function.comp, updEntry, hqk]

lemma mapSet_keys_of_not {α : Type} (m : List (String × α)) (k : String) (v : α)
    (h : mapHasKey m k = false) :
    (mapSet m k v).map (fun p => p.1) = m.map (fun p => p.1) ++ [k] := by
  rw [mapSet_eq, if_neg (by simp [h])]
  simp

lemma mem_mapSet_self {α : Type} (m : List (String × α)) (k : String) (v : α) :
    (k, v) ∈ mapSet m k v := by
  by_cases h : mapHasKey m k = true
  · rw [mapSet_eq, if_pos h]
    obtain ⟨p, hp, hpk⟩ : ∃ p ∈ m, (p.1 == k) = true := by
      simpa [mapHasKey, List.any_eq_true] using h
    exact List.mem_map.mpr ⟨p, hp, by simp [updEntry, hpk]⟩
  · rw [mapSet_eq, if_neg h]
    simp

lemma mapSet_keys_nodup {α : Type} (m : List (String × α)) (k : String) (v : α)
    (h : (m.map (fun p => p.1)).Nodup) :
    ((mapSet m k v).map (fun p => p.1)).Nodup := by
  by_cases hk0 : mapHasKey m k = true
  · rw [mapSet_keys_of_has m k v hk0]; exact h
  · have hk : mapHasKey m k = false := by
      cases hh : mapHasKey m k with
      | true => exact absurd hh hk0
      | false => rfl
    rw [mapSet_keys_of_not m k v hk]
    rw [List.nodup_append]
    refine ⟨h, List.nodup_singleton k, ?_⟩
    intro a ha hb
    simp only [List.mem_singleton] at hb
    subst hb
    have : mapHasKey m a = true := (mapHasKey_iff m a).mpr ha
    rw [hk] at this
    exact Bool.false_ne_true this

lemma filter_key_single {α : Type} (k : String) :
    ∀ m : List (String × α), (m.map (fun p => p.1)).Nodup →
      k ∈ m.map (fun p => p.1) →
      (m.filter (fun p => p.1 == k)).length = 1 := by
  intro m
  induction m with
  | nil => simp
  | cons p t ih =>
    intro hnd hk
    simp only [List.map_cons, List.nodup_cons] at hnd
    rcases List.mem_cons.mp hk with h1 | h1
    · have hp : (p.1 == k) = true := by simp [h1]
      rw [filter_cons_pos (fun q => q.1 == k) p t hp]
      have : t.filter (fun q => q.1 == k) = [] := by
        rw [List.filter_eq_nil_iff]
        intro q hq
        simp only [beq_iff_eq]
        intro he
        refine hnd.1 ?_
        have hpk : (p.1 : String) = k := by simpa using hp
        rw [hpk, ← he]
        exact List.mem_map.mpr ⟨q, hq, rfl⟩
      simp [this]
    · have hp : (p.1 == k) = false := by
        simp only [beq_eq_false_iff_ne, ne_eq]
        intro he
        rw [he] at hnd
        exact hnd.1 h1
      rw [filter_cons_neg (fun q => q.1 == k) p t hp]
      exact ih hnd.2 h1

lemma mapGet_some_mem {α : Type} (m : List (String × α)) (k : String) (x : α)
    (h : mapGet m k = some x) : (k, x) ∈ m := by
  unfold mapGet at h
  cases hf : m.find? (fun p => p.1 == k) with
  | none => rw [hf] at h; simp at h
  | some p =>
    rw [hf] at h
    have hmem := List.mem_of_find?_eq_some hf
    have hpred := List.find?_some hf
    have hk : p.1 = k := by simpa using hpred
    have hx : p.2 = x := by simpa using h
    have : p = (k, x) := by
      cases p
      simp only [Prod.mk.injEq]
      exact ⟨hk, hx⟩
    rw [← this]
    exact hmem

lemma mapHasKey_of_mapGet_some {α : Type} (m : List (String × α)) (k : String)
    (x : α) (h : mapGet m k = some x) : mapHasKey m k = true := by
  have := mapGet_some_mem m k x h
  exact (mapHasKey_iff m k).mpr (List.mem_map.mpr ⟨(k, x), this, rfl⟩)

lemma mapGet_isSome_of_mem {α : Type} (m : List (String × α)) (k : String)
    (h : k ∈ m.map (fun p => p.1)) : ∃ x, mapGet m k = some x := by
  unfold mapGet
  obtain ⟨p, hp, hpk⟩ := List.mem_map.mp h
  have : (m.find? (fun p => p.1 == k)).isSome := by
    rw [List.find?_isSome]
    exact ⟨p, hp, by simp [hpk]⟩
  cases hf : m.find? (fun p => p.1 == k) with
  | none => rw [hf] at this; simp at this
  | some q => exact ⟨q.2, by simp [hf]⟩

lemma mem_mapSet_cases {α : Type} (m : List (String × α)) (k : String) (v : α)
    (q : String × α) (hq : q ∈ mapSet m k v) : q = (k, v) ∨ q ∈ m := by
  by_cases h : mapHasKey m k = true
  · rw [mapSet_eq, if_pos h] at hq
    obtain ⟨p, hp, hpe⟩ := List.mem_map.mp hq
    unfold updEntry at hpe
    by_cases hpk : (p.1 == k) = true
    · rw [if_pos hpk] at hpe
      exact Or.inl hpe.symm
    · rw [if_neg hpk] at hpe
      exact Or.inr (hpe ▸ hp)
  · rw [mapSet_eq, if_neg h] at hq
    rcases List.mem_append.mp hq with h1 | h1
    · exact Or.inr h1
    · simp only [List.mem_singleton] at h1
      exact Or.inl h1

/-- `seededNames` evaluates to the 15 seeded keys. -/
lemma seededNames_eq :
    seededNames = ["repositories", "merge-requests", "issues", "pipelines",
      "projects", "commits", "namespaces", "milestones", "wiki", "releases",
      "users", "search", "notes", "events", "groups"] := by decide

lemma reachable_inv {reg : ToolRegistry} (h : Reachable reg) : RegInv reg := by
  induction h with
  | fresh =>
    refine ⟨by decide, by decide, by decide, by decide, by decide⟩
  | step reg name category title description inS outS handler _ ih =>
    obtain ⟨hcat, hname, htbc, hnd, hcnt⟩ := ih
    unfold registerTool
    cases htb : mapGet reg.toolsByCategory category with
    | none =>
      refine ⟨hcat, hname, htbc, mapSet_keys_nodup _ _ _ hnd, ?_⟩
      intro n hn
      unfold catCount catList
      exact hcnt n hn
    | some lst =>
      have hhas : mapHasKey reg.toolsByCategory category = true :=
        mapHasKey_of_mapGet_some _ _ _ htb
      have hcatmem : category ∈ seededNames := by
        rw [← htbc]
        exact (mapHasKey_iff _ _).mp hhas
      have hcmem : category ∈ reg.categories.map (fun p => p.1) := by
        rw [hcat]; exact hcatmem
      obtain ⟨ci, hci⟩ := mapGet_isSome_of_mem _ _ hcmem
      rw [hci]
      have hcihas : mapHasKey reg.categories category = true :=
        mapHasKey_of_mapGet_some _ _ _ hci
      refine ⟨?_, ?_, ?_, mapSet_keys_nodup _ _ _ hnd, ?_⟩
      · rw [mapSet_keys_of_has _ _ _ hcihas]
        exact hcat
      · intro p hp
        rcases mem_mapSet_cases _ _ _ _ hp with h1 | h1
        · subst h1
          have : ci.name = category := by
            have := hname (category, ci) (mapGet_some_mem _ _ _ hci)
            simpa using this
          simpa using this
        · exact hname p h1
      · rw [mapSet_keys_of_has _ _ _ hhas]
        exact htbc
      · intro n hn
        unfold catCount catList
        by_cases hnc : n = category
        · subst hnc
          rw [mapGet_set_self, mapGet_set_self]
          have := hcnt n hn
          unfold catCount catList at this
          rw [hci, htb] at this
          simp only [Option.map_some', Option.getD_some] at this
          simp [this]
        · rw [mapGet_set_other _ _ _ _ hnc, mapGet_set_other _ _ _ _ hnc]
          exact hcnt n hn

/-- The names of `listTools` output are exactly the stored name list
of the lowercased category. -/
lemma listTools_names (reg : ToolRegistry) (c : String) :
    (listTools reg c).map (fun t => t.name) =
      (mapGet reg.toolsByCategory (strToLower c)).getD [] := by
  unfold listTools
  cases mapGet reg.toolsByCategory (strToLower c) with
  | none => simp
  | some names =>
    rw [List.map_map]
    exact List.map_id names

/-! ## Substring lemmas -/

lemma toList_append (a b : String) : (a ++ b).toList = a.toList ++ b.toList := by
  simp [String.toList, String.data_append]

lemma hasSub_of_infix : ∀ hay sub : List Char, sub <:+: hay → hasSub hay sub = true := by
  intro hay
  induction hay with
  | nil =>
    intro sub h
    rw [List.infix_nil] at h
    subst h
    rfl
  | cons c t ih =>
    intro sub h
    rcases List.infix_cons_iff.mp h with hpre | hinf
    · unfold hasSub
      rw [List.isPrefixOf_iff_prefix.mpr hpre]
      simp
    · unfold hasSub
      rw [ih sub hinf]
      simp

lemma strContains_of_infix (h s : String) (hin : s.toList <:+: h.toList) :
    strContains h s = true :=
  hasSub_of_infix h.toList s.toList hin

lemma infix_of_mem_joinSep (sep : String) :
    ∀ (l : List String) (a : String), a ∈ l →
      a.toList <:+: (joinSep sep l).toList := by
  intro l
  induction l with
  | nil => simp
  | cons x xs ih =>
    intro a ha
    rcases List.mem_cons.mp ha with h1 | h1
    · subst h1
      cases xs with
      | nil => exact List.infix_refl _
      | cons y ys =>
        show a.toList <:+: (a ++ sep ++ joinSep sep (y :: ys)).toList
        rw [toList_append, toList_append]
        exact ((List.prefix_append a.toList _).trans
          (List.prefix_append _ _)).isInfix
    · cases xs with
      | nil => simp at h1
      | cons y ys =>
        show a.toList <:+: (x ++ sep ++ joinSep sep (y :: ys)).toList
        rw [toList_append]
        exact (ih a h1).trans (List.suffix_append _ _).isInfix

lemma applyStringChecks_eq_foldl (sch : ZRecord) (cs : List ZCheck) :
    applyStringChecks sch (some cs) = cs.foldl stepCheck sch := rfl

lemma lastCheckVal_cons (kind : String) (ch : ZCheck) (cs : List ZCheck) :
    lastCheckVal kind (ch :: cs) =
      (lastCheckVal kind cs).or
        (if ch.kind == kind then some (ch.value.getD .undef) else none) := by
  unfold lastCheckVal
  rw [List.reverse_cons, List.find?_append]
  cases hf : List.find? (fun c => c.kind == kind) cs.reverse with
  | some c => simp [Option.or]
  | none =>
    cases hk : (ch.kind == kind) with
    | true => simp [List.find?, hk, Option.or]
    | false => simp [List.find?, hk, Option.or]

lemma stepCheck_lookup_min (sch : ZRecord) (ch : ZCheck) :
    mapGet (stepCheck sch ch) "minLength" =
      if ch.kind == "min" then some (ch.value.getD .undef)
      else mapGet sch "minLength" := by
  unfold stepCheck
  cases hmin : (ch.kind == "min") with
  | true =>
    have hmax : (ch.kind == "max") = false := by
      have : ch.kind = "min" := by simpa using hmin
      simp [this]
    simp only [hmax, if_neg, Bool.false_eq_true, if_pos, if_true]
    rw [mapGet_set_self]
  | false =>
    simp only [Bool.false_eq_true, if_false]
    cases hmax : (ch.kind == "max") with
    | true =>
      simp only [if_true]
      rw [mapGet_set_other]
      decide
    | false => simp

lemma stepCheck_lookup_max (sch : ZRecord) (ch : ZCheck) :
    mapGet (stepCheck sch ch) "maxLength" =
      if ch.kind == "max" then some (ch.value.getD .undef)
      else mapGet sch "maxLength" := by
  unfold stepCheck
  cases hmin : (ch.kind == "min") with
  | true =>
    have hmax : (ch.kind == "max") = false := by
      have : ch.kind = "min" := by simpa using hmin
      simp [this]
    simp only [hmax, Bool.false_eq_true, if_false, if_true]
    rw [mapGet_set_other]
    · decide
  | false =>
    simp only [Bool.false_eq_true, if_false]
    cases hmax : (ch.kind == "max") with
    | true =>
      simp only [if_true]
      rw [mapGet_set_self]
    | false => simp

lemma stepCheck_lookup_other (sch : ZRecord) (ch : ZCheck) (key : String)
    (h1 : key ≠ "minLength") (h2 : key ≠ "maxLength") :
    mapGet (stepCheck sch ch) key = mapGet sch key := by
  unfold stepCheck
  cases hmin : (ch.kind == "min") with
  | true =>
    cases hmax : (ch.kind == "max") with
    | true => simp only [if_true]; rw [mapGet_set_other _ _ _ _ h1, mapGet_set_other _ _ _ _ h2]
    | false => simp only [Bool.false_eq_true, if_false, if_true]; rw [mapGet_set_other _ _ _ _ h1]
  | false =>
    cases hmax : (ch.kind == "max") with
    | true => simp only [Bool.false_eq_true, if_false, if_true]; rw [mapGet_set_other _ _ _ _ h2]
    | false => simp

lemma foldl_stepCheck_lookup_min :
    ∀ (cs : List ZCheck) (sch : ZRecord),
      mapGet (cs.foldl stepCheck sch) "minLength" =
        (lastCheckVal "min" cs).or (mapGet sch "minLength") := by
  intro cs
  induction cs with
  | nil => intro sch; simp [lastCheckVal, Option.or]
  | cons ch cs ih =>
    intro sch
    rw [List.foldl_cons, ih, lastCheckVal_cons, stepCheck_lookup_min]
    cases hv : lastCheckVal "min" cs with
    | some v => simp [Option.or]
    | none =>
      cases hk : (ch.kind == "min") with
      | true => simp [Option.or]
      | false => simp [Option.or]

lemma foldl_stepCheck_lookup_max :
    ∀ (cs : List ZCheck) (sch : ZRecord),
      mapGet (cs.foldl stepCheck sch) "maxLength" =
        (lastCheckVal "max" cs).or (mapGet sch "maxLength") := by
  intro cs
  induction cs with
  | nil => intro sch; simp [lastCheckVal, Option.or]
  | cons ch cs ih =>
    intro sch
    rw [List.foldl_cons, ih, lastCheckVal_cons, stepCheck_lookup_max]
    cases hv : lastCheckVal "max" cs with
    | some v => simp [Option.or]
    | none =>
      cases hk : (ch.kind == "max") with
      | true => simp [Option.or]
      | false => simp [Option.or]

lemma foldl_stepCheck_lookup_other :
    ∀ (cs : List ZCheck) (sch : ZRecord) (key : String),
      key ≠ "minLength" → key ≠ "maxLength" →
      mapGet (cs.foldl stepCheck sch) key = mapGet sch key := by
  intro cs
  induction cs with
  | nil => intro sch key _ _; rfl
  | cons ch cs ih =>
    intro sch key h1 h2
    rw [List.foldl_cons, ih _ _ h1 h2, stepCheck_lookup_other _ _ _ h1 h2]

/-! ## Claim theorems -/

/-- C5: Registration postcondition: immediately after `registerTool`,
`hasTool` is true, `getHandler` returns exactly the handler just
passed, and `getToolSchema` returns the descriptor just stored — on
any prior registry state, so in particular a prior entry with
the same name in the main index is overwritten by the new one. -/
theorem registerTool_postcondition (reg : ToolRegistry)
    (name category title description : String)
    (inS outS : List (String × ZodVal)) (handler : ToolHandler) :
    hasTool (registerTool reg name category title description inS outS handler) name = true ∧
    getHandler (registerTool reg name category title description inS outS handler) name =
      some handler ∧
    getToolSchema (registerTool reg name category title description inS outS handler) name =
      some ⟨name, title, description, category, inS, outS⟩ := by
  have htools : (registerTool reg name category title description inS outS handler).tools =
      mapSet reg.tools name ⟨⟨name, title, description, category, inS, outS⟩, handler⟩ := by
    unfold registerTool
    cases mapGet reg.toolsByCategory category with
    | none => rfl
    | some lst =>
      cases mapGet reg.categories category with
      | none => rfl
      | some ci => rfl
  unfold hasTool getHandler getToolSchema
  rw [htools, mapGet_set_self]
  exact ⟨rfl, rfl, rfl⟩

/-- C1: `execute_tool` is a total fault-containment boundary: an
unregistered name yields an error-flagged result naming the tool and
leaves the registry unchanged; a handler that rejects/throws yields an
error-flagged result whose text and structured payload carry the
thrown message, and (the function being total into a plain result) the
exception is not propagated. -/
theorem execute_tool_fault_containment (reg : ToolRegistry) (toolName : String)
    (params : Params) :
    (hasTool reg toolName = false →
      execute_tool reg toolName params =
        (reg,
         { content := ["Tool \x27" ++ toolName ++
             "\x27 not found. Use search_tools or list_tools to find valid tool names."]
         , structuredContent :=
             some [("success", .bool false),
                   ("error", .str ("Tool \x27" ++ toolName ++ "\x27 not found"))]
         , isError := some true }) ∧
      strContains ("Tool \x27" ++ toolName ++
        "\x27 not found. Use search_tools or list_tools to find valid tool names.")
        toolName = true) ∧
    (∀ (h : ToolHandler) (msg : String),
      getHandler reg toolName = some h → h params = .error msg →
      execute_tool reg toolName params =
        (reg,
         { content := ["Tool execution failed: " ++ msg]
         , structuredContent := some [("success", .bool false), ("error", .str msg)]
         , isError := some true }) ∧
      strContains ("Tool execution failed: " ++ msg) msg = true) := by
  constructor
  · intro hft
    have hnone : getHandler reg toolName = none := by
      unfold hasTool at hft
      unfold getHandler
      cases hmg : mapGet reg.tools toolName with
      | none => rfl
      | some t => rw [hmg] at hft; simp at hft
    refine ⟨?_, ?_⟩
    · unfold execute_tool
      rw [hnone]
    · apply strContains_of_infix
      rw [toList_append, toList_append]
      exact List.infix_append _ _ _
  · intro h msg hh hmsg
    refine ⟨?_, ?_⟩
    · unfold execute_tool
      rw [hh]
      simp only [hmsg]
    · apply strContains_of_infix
      rw [toList_append]
      exact (List.suffix_append _ _).isInfix

theorem execute_tool_fault_containment_witness :
    (execute_tool regWithThrower "ghost" []).2.isError = some true ∧
    (execute_tool regWithThrower "thrower" []).2.content =
      ["Tool execution failed: boom"] := by
  have h1 := (execute_tool_fault_containment regWithThrower "ghost" []).1 (by decide)
  have h2 := (execute_tool_fault_containment regWithThrower "thrower" []).2
    throwingHandler "boom" rfl rfl
  refine ⟨by rw [h1.1], ?_⟩
  rw [h2.1]
  simp

/-- C7: `list_tools` on a category whose listing is empty returns an
error-flagged result whose text mentions every category name from
`listCategories'; on a non-empty listing it returns a success result
whose structured payload is exactly the listing. -/
theorem list_tools_error_enumerates_categories (reg : ToolRegistry)
    (category : String) :
    (listTools reg category = [] →
      (list_tools reg category).isError = some true ∧
      (list_tools reg category).structuredTools = [] ∧
      ∀ c ∈ listCategories reg,
        strContains (list_tools reg category).text c.name = true) ∧
    (listTools reg category ≠ [] →
      (list_tools reg category).isError = none ∧
      (list_tools reg category).structuredTools = listTools reg category) := by
  constructor
  · intro he
    have hval : list_tools reg category =
        { text := "Category \x27" ++ category ++
            "\x27 not found or has no tools. Available categories: " ++
            joinSep ", " ((listCategories reg).map (fun c => c.name))
        , structuredTools := []
        , isError := some true } := by
      unfold list_tools
      rw [he]
      rfl
    rw [hval]
    refine ⟨rfl, rfl, ?_⟩
    intro c hc
    apply strContains_of_infix
    rw [toList_append]
    refine (infix_of_mem_joinSep ", " _ c.name ?_).trans
      (List.suffix_append _ _).isInfix
    exact List.mem_map.mpr ⟨c, hc, rfl⟩
  · intro hne
    cases hl : listTools reg category with
    | nil => exact absurd hl hne
    | cons t ts =>
      have hval : list_tools reg category =
          { text := "Tools in " ++ category ++ ":\n" ++
              joinSep "\n" ((t :: ts).map (fun t => "- **" ++ t.name ++ "**: " ++ t.description))
          , structuredTools := t :: ts
          , isError := none } := by
        unfold list_tools
        rw [hl]
        rfl
      rw [hval]
      exact ⟨rfl, rfl⟩

theorem list_tools_error_enumerates_categories_witness :
    (list_tools regWithThrower "nope").isError = some true ∧
    strContains (list_tools regWithThrower "nope").text "issues" = true ∧
    (list_tools regWithThrower "issues").structuredTools =
      listTools regWithThrower "issues" := by
  have h1 := (list_tools_error_enumerates_categories regWithThrower "nope").1 (by decide)
  have h2 := (list_tools_error_enumerates_categories regWithThrower "issues").2 (by decide)
  refine ⟨h1.1, ?_, h2.2⟩
  have := h1.2.2 ⟨"issues",
    "Create, update, delete issues. List issues, manage issue links and discussions.", 1⟩
    (by decide)
  simpa using this

lemma listCategories_names_aux :
    ∀ m : List (String × CategoryInfo),
      (∀ p ∈ m, p.2.name = p.1) → (m.map (fun p => p.1)).Nodup →
      ((m.map (fun p => p.2)).filter (fun c => decide (0 < c.toolCount))).map
          (fun c => c.name) =
        (m.map (fun p => p.1)).filter
          (fun n => decide (0 < ((mapGet m n).map (fun c => c.toolCount)).getD 0)) := by
  intro m
  induction m with
  | nil => intro _ _; rfl
  | cons p t ih =>
    intro hname hnd
    obtain ⟨k, ci⟩ := p
    simp only [List.map_cons, List.nodup_cons] at hnd
    have hkci : ci.name = k := by
      have := hname (k, ci) (by simp)
      simpa using this
    have hk : mapGet ((k, ci) :: t) k = some ci := by
      unfold mapGet
      simp [List.find?]
    have htail : ∀ n ∈ t.map (fun p => p.1),
        mapGet ((k, ci) :: t) n = mapGet t n := by
      intro n hn
      have hkn : (k == n) = false := by
        simp only [beq_eq_false_iff_ne, ne_eq]
        intro he
        rw [he] at hnd
        exact hnd.1 hn
      unfold mapGet
      simp [List.find?, hkn]
    have hfc : (t.map (fun p => p.1)).filter
          (fun n => decide (0 < ((mapGet ((k, ci) :: t) n).map (fun c => c.toolCount)).getD 0)) =
        (t.map (fun p => p.1)).filter
          (fun n => decide (0 < ((mapGet t n).map (fun c => c.toolCount)).getD 0)) := by
      refine List.filter_congr ?_
      intro n hn
      rw [htail n hn]
    have hihv := ih (fun q hq => hname q (by simp [hq])) hnd.2
    by_cases hpos : 0 < ci.toolCount
    · have hb : ((fun c => decide (0 < c.toolCount)) ci) = true := by simpa using hpos
      have hb2 : ((fun n => decide (0 <
          ((mapGet ((k, ci) :: t) n).map (fun c => c.toolCount)).getD 0)) k) = true := by
        simp only [hk]
        simpa using hpos
      simp only [List.map_cons]
      rw [filter_cons_pos (fun c => decide (0 < c.toolCount)) ci _ hb]
      rw [filter_cons_pos _ k _ hb2]
      rw [hfc]
      simp only [List.map_cons, hkci]
      rw [hihv]
    · have hb : ((fun c => decide (0 < c.toolCount)) ci) = false := by simpa using hpos
      have hb2 : ((fun n => decide (0 <
          ((mapGet ((k, ci) :: t) n).map (fun c => c.toolCount)).getD 0)) k) = false := by
        simp only [hk]
        simpa using hpos
      simp only [List.map_cons]
      rw [filter_cons_neg (fun c => decide (0 < c.toolCount)) ci _ hb]
      rw [filter_cons_neg _ k _ hb2]
      rw [hfc]
      exact hihv

/-- C6: in every reachable registry state, `listCategories` returns
exactly the seeded categories whose stored count is positive, in
seeding order; it never includes a zero-count category, and the fresh
registry yields the empty list. -/
theorem listCategories_nonzero_seeded (reg : ToolRegistry) (h : Reachable reg) :
    (listCategories reg).map (fun c => c.name) =
      seededNames.filter (fun n => decide (0 < catCount reg n)) ∧
    (∀ c ∈ listCategories reg, 0 < c.toolCount) ∧
    listCategories freshRegistry = [] := by
  obtain ⟨hcat, hname, _, _, _⟩ := reachable_inv h
  refine ⟨?_, ?_, by decide⟩
  · have hnd : (reg.categories.map (fun p => p.1)).Nodup := by
      rw [hcat]
      decide
    have haux := listCategories_names_aux reg.categories hname hnd
    unfold listCategories catCount
    rw [haux, hcat]
  · intro c hc
    unfold listCategories at hc
    have := (List.mem_filter.mp hc).2
    simpa using this

theorem listCategories_nonzero_seeded_witness :
    (listCategories regOneIssue).map (fun c => c.name) =
      seededNames.filter (fun n => decide (0 < catCount regOneIssue n)) ∧
    (listCategories regOneIssue).map (fun c => c.name) = ["issues"] := by
  refine ⟨(listCategories_nonzero_seeded regOneIssue
    (Reachable.step freshRegistry "tool_a" "issues" "Tool A" "issue helper" [] [] okHandler
      Reachable.fresh)).1, by decide⟩

lemma insertDesc_perm (x : ScoredTool) :
    ∀ l : List ScoredTool, (insertDesc x l).Perm (x :: l) := by
  intro l
  induction l with
  | nil => exact List.Perm.refl _
  | cons y ys ih =>
    unfold insertDesc
    by_cases h : x.score < y.score
    · rw [if_pos h]
      exact (List.Perm.cons y ih).trans (List.Perm.swap x y ys)
    · rw [if_neg h]

lemma sortDesc_perm : ∀ l : List ScoredTool, (sortDesc l).Perm l := by
  intro l
  induction l with
  | nil => exact List.Perm.refl _
  | cons x xs ih =>
    unfold sortDesc
    exact (insertDesc_perm x (sortDesc xs)).trans (List.Perm.cons x ih)

lemma hasSub_refl : ∀ l : List Char, hasSub l l = true := by
  intro l
  cases l with
  | nil => rfl
  | cons c t =>
    unfold hasSub
    rw [List.isPrefixOf_iff_prefix.mpr (List.prefix_refl _)]
    simp

/-- C4 (counterexample): `ISSUES` is not a seeded category and
`tool_b` is registered under it, yet `listTools "ISSUES"` is not the
empty sequence — the lowercased lookup finds the seeded `issues`
category and returns its (other) tool. -/
theorem silent_partition_counterexample :
    ("ISSUES" ∉ seededNames) ∧
    hasTool regPartitionCex "tool_b" = true ∧
    listTools regPartitionCex "ISSUES" ≠ [] ∧
    listTools regPartitionCex "ISSUES" = [⟨"tool_a", "descA"⟩] := by
  refine ⟨by decide, by decide, ?_, by decide⟩
  intro h
  have : listTools regPartitionCex "ISSUES" = [⟨"tool_a", "descA"⟩] := by decide
  rw [this] at h
  cases h

/-- C4 (amended): registering under an unseeded category name, from
any reachable state, leaves the operation fully resolvable
(`hasTool`, `getHandler`, `getToolSchema`) and reachable through
`searchTools`; `listCategories` is unchanged, no category's name
listing gains the operation, and `listTools` of the category is empty
whenever the lowercased category name is also unseeded. -/
theorem silent_partition_amended (reg : ToolRegistry) (h : Reachable reg)
    (name c title description : String) (inS outS : List (String × ZodVal))
    (handler : ToolHandler) (hc : c ∉ seededNames) (rg : ToolRegistry)
    (hrg : rg = registerTool reg name c title description inS outS handler) :
    hasTool rg name = true ∧
    getHandler rg name = some handler ∧
    getToolSchema rg name = some ⟨name, title, description, c, inS, outS⟩ ∧
    (⟨name, description⟩ : ToolSummary) ∈ searchTools rg name rg.tools.length ∧
    listCategories rg = listCategories reg ∧
    (∀ q, (listTools rg q).map (fun t => t.name) =
      (listTools reg q).map (fun t => t.name)) ∧
    (strToLower c ∉ seededNames → listTools rg c = []) := by
  obtain ⟨hcat, hname, htbc, hnd, hcnt⟩ := reachable_inv h
  have htbnone : mapGet reg.toolsByCategory c = none := by
    apply mapGet_eq_none_of_not_mem
    rw [htbc]
    exact hc
  have hreg : rg = { reg with tools := mapSet reg.tools name (⟨⟨name, title, description, c, inS, outS⟩, handler⟩ : RegisteredTool) } := by
    rw [hrg]
    unfold registerTool
    rw [htbnone]
  refine ⟨?_, ?_, ?_, ?_, ?_, ?_, ?_⟩
  · rw [hreg]
    unfold hasTool
    rw [mapGet_set_self]
    rfl
  · rw [hreg]
    unfold getHandler
    rw [mapGet_set_self]
    rfl
  · rw [hreg]
    unfold getToolSchema
    rw [mapGet_set_self]
    rfl
  · -- searchTools reachability
    have hself : strContains (strToLower name) (strToLower name) = true :=
      hasSub_refl _
    have hmemtools : (name, (⟨⟨name, title, description, c, inS, outS⟩, handler⟩ :
        RegisteredTool)) ∈ rg.tools := by
      rw [hreg]
      exact mem_mapSet_self _ _ _
    have hspos : 0 < toolScore (strToLower name) name
        ⟨name, title, description, c, inS, outS⟩ := by
      unfold toolScore
      simp only [hself, if_true]
      split <;> split <;> omega
    have hmem : (⟨toolScore (strToLower name) name
          ⟨name, title, description, c, inS, outS⟩,
        ⟨name, description⟩⟩ : ScoredTool) ∈ scoredResults rg name := by
      unfold scoredResults
      refine List.mem_filterMap.mpr ⟨(name, ⟨⟨name, title, description, c, inS, outS⟩, handler⟩), hmemtools, ?_⟩
      simp only [if_pos hspos]
    have hlen : (sortDesc (scoredResults rg name)).length ≤ rg.tools.length := by
      rw [(sortDesc_perm _).length_eq]
      exact List.length_filterMap_le _ _
    unfold searchTools
    rw [List.take_of_length_le hlen]
    refine List.mem_map.mpr ⟨⟨toolScore (strToLower name) name ⟨name, title, description, c, inS, outS⟩, ⟨name, description⟩⟩, ?_, rfl⟩
    exact ((sortDesc_perm _).mem_iff).mpr hmem
  · rw [hreg]
    unfold listCategories
    rfl
  · intro q
    rw [listTools_names, listTools_names, hreg]
  · intro hlow
    rw [hreg]
    unfold listTools
    have : mapGet reg.toolsByCategory (strToLower c) = none := by
      apply mapGet_eq_none_of_not_mem
      rw [htbc]
      exact hlow
    rw [show ({ reg with tools := mapSet reg.tools name (⟨⟨name, title, description, c, inS, outS⟩, handler⟩ : RegisteredTool) } : ToolRegistry).toolsByCategory = reg.toolsByCategory from rfl, this]

theorem silent_partition_amended_witness :
    hasTool regUnseeded "lonely" = true ∧
    (⟨"lonely", "desc lonely"⟩ : ToolSummary) ∈
      searchTools regUnseeded "lonely" regUnseeded.tools.length ∧
    listCategories regUnseeded = listCategories freshRegistry ∧
    listTools regUnseeded "FOO" = [] := by
  have hh := silent_partition_amended freshRegistry Reachable.fresh "lonely" "FOO"
    "Lonely" "desc lonely" [] [] okHandler (by decide) regUnseeded rfl
  exact ⟨hh.1, hh.2.2.2.1, hh.2.2.2.2.1, hh.2.2.2.2.2.2 (by decide)⟩

lemma seeded_strToLower : ∀ c ∈ seededNames, strToLower c = c := by decide

lemma registerTool_fields_seeded (reg : ToolRegistry)
    (name category title description : String)
    (inS outS : List (String × ZodVal)) (handler : ToolHandler)
    (lst : List String) (ci : CategoryInfo)
    (htb : mapGet reg.toolsByCategory category = some lst)
    (hci : mapGet reg.categories category = some ci) :
    registerTool reg name category title description inS outS handler =
      { tools := mapSet reg.tools name (⟨⟨name, title, description, category, inS, outS⟩, handler⟩ : RegisteredTool)
      , categories := mapSet reg.categories category ⟨ci.name, ci.description, ci.toolCount + 1⟩
      , toolsByCategory := mapSet reg.toolsByCategory category (lst ++ [name]) } := by
  unfold registerTool
  rw [htb, hci]

/-- C10: in every reachable state, each seeded category's stored
`toolCount` equals the length of its stored name list, which equals
`listTools` output length; registering the same name twice under the
same seeded category adds 2 to the count, makes `listTools` list the
name twice, while the main index keeps a single entry for it. -/
theorem category_count_consistency (reg : ToolRegistry) (h : Reachable reg)
    (c : String) (hc : c ∈ seededNames) :
    (catCount reg c = (catList reg c).length ∧
     (listTools reg c).length = (catList reg c).length) ∧
    (∀ (name t1 d1 t2 d2 : String) (i1 o1 i2 o2 : List (String × ZodVal))
       (h1 h2 : ToolHandler) (rg2 : ToolRegistry),
      rg2 = registerTool (registerTool reg name c t1 d1 i1 o1 h1) name c t2 d2 i2 o2 h2 →
      catCount rg2 c = catCount reg c + 2 ∧
      List.count name ((listTools rg2 c).map (fun t => t.name)) =
        List.count name ((listTools reg c).map (fun t => t.name)) + 2 ∧
      (rg2.tools.filter (fun p => p.1 == name)).length = 1) := by
  obtain ⟨hcat, hname, htbc, hnd, hcnt⟩ := reachable_inv h
  have hlow : strToLower c = c := seeded_strToLower c hc
  obtain ⟨L, hL⟩ := mapGet_isSome_of_mem reg.toolsByCategory c (by rw [htbc]; exact hc)
  obtain ⟨ci, hci⟩ := mapGet_isSome_of_mem reg.categories c (by rw [hcat]; exact hc)
  have hcatlist : catList reg c = L := by
    unfold catList
    rw [hL]
    rfl
  have hlistnames : (listTools reg c).map (fun t => t.name) = L := by
    rw [listTools_names, hlow, hL]
    rfl
  refine ⟨⟨?_, ?_⟩, ?_⟩
  · have := hcnt c hc
    rw [hcatlist] at this
    rw [hcatlist]
    exact this
  · have := congrArg List.length hlistnames
    rw [List.length_map] at this
    rw [hcatlist]
    exact this
  · intro name t1 d1 t2 d2 i1 o1 i2 o2 h1 h2 rg2 hrg2
    have hreg1 := registerTool_fields_seeded reg name c t1 d1 i1 o1 h1 L ci hL hci
    set reg1 := registerTool reg name c t1 d1 i1 o1 h1 with hr1
    have htb1 : mapGet reg1.toolsByCategory c = some (L ++ [name]) := by
      rw [hreg1]
      exact mapGet_set_self _ _ _
    have hci1 : mapGet reg1.categories c =
        some ⟨ci.name, ci.description, ci.toolCount + 1⟩ := by
      rw [hreg1]
      exact mapGet_set_self _ _ _
    have hreg2 := registerTool_fields_seeded reg1 name c t2 d2 i2 o2 h2
      (L ++ [name]) ⟨ci.name, ci.description, ci.toolCount + 1⟩ htb1 hci1
    rw [hreg2] at hrg2
    have hcount : catCount reg c = ci.toolCount := by
      unfold catCount
      rw [hci]
      rfl
    refine ⟨?_, ?_, ?_⟩
    · unfold catCount
      rw [hrg2]
      have : mapGet (mapSet reg1.categories c
          (⟨ci.name, ci.description, ci.toolCount + 1 + 1⟩ : CategoryInfo)) c =
          some ⟨ci.name, ci.description, ci.toolCount + 1 + 1⟩ := mapGet_set_self _ _ _
      simp only [this, hci, Option.map_some', Option.getD_some]
    · rw [hlistnames]
      have h2names : (listTools rg2 c).map (fun t => t.name) = (L ++ [name]) ++ [name] := by
        rw [listTools_names, hlow, hrg2]
        have : mapGet (mapSet reg1.toolsByCategory c ((L ++ [name]) ++ [name])) c =
            some ((L ++ [name]) ++ [name]) := mapGet_set_self _ _ _
        simp only [this]
        rfl
      rw [h2names]
      simp [List.count_append]
    · have hnd2 : (rg2.tools.map (fun p => p.1)).Nodup := by
        rw [hrg2]
        refine mapSet_keys_nodup _ _ _ ?_
        rw [hreg1]
        exact mapSet_keys_nodup _ _ _ hnd
      have hmem2 : name ∈ rg2.tools.map (fun p => p.1) := by
        rw [hrg2]
        exact List.mem_map.mpr ⟨(name, ⟨⟨name, t2, d2, c, i2, o2⟩, h2⟩), mem_mapSet_self _ _ _, rfl⟩
      exact filter_key_single name rg2.tools hnd2 hmem2

theorem category_count_consistency_witness :
    catCount regDouble "issues" = catCount freshRegistry "issues" + 2 ∧
    List.count "dup" ((listTools regDouble "issues").map (fun t => t.name)) =
      List.count "dup" ((listTools freshRegistry "issues").map (fun t => t.name)) + 2 ∧
    (regDouble.tools.filter (fun p => p.1 == "dup")).length = 1 :=
  (category_count_consistency freshRegistry Reachable.fresh "issues" (by decide)).2
    "dup" "T1" "D1" "T2" "D2" [] [] [] [] okHandler okHandler regDouble rfl

/-- C2: `searchTools` returns exactly the positive-score registered
tools (weights 3/2/1 for case-insensitive substring match on
name/title/description), in descending score order with ties in the
registry's iteration order (the score buckets 6..1 concatenated in
iteration order), truncated to `limit`; the result never exceeds
`limit` entries. -/
theorem searchTools_matches_spec (reg : ToolRegistry) (q : String) (lim : Nat)
    (_hlim : 1 ≤ lim) :
    searchTools reg q lim = searchToolsSpec reg q lim ∧
    (searchTools reg q lim).length ≤ lim := by
  have hscores : ∀ y ∈ scoredResults reg q, y.score ∈ [6, 5, 4, 3, 2, 1] := by
    intro y hy
    have := scoredResults_score_bounds reg q y hy
    simp only [List.mem_cons]
    omega
  constructor
  · unfold searchTools searchToolsSpec
    rw [sortDesc_eq_bucketsBy [6, 5, 4, 3, 2, 1] (by decide) _ hscores]
  · unfold searchTools
    rw [List.length_map]
    exact List.length_take_le _ _

theorem searchTools_matches_spec_witness :
    searchTools regOneIssue "tool" 20 = searchToolsSpec regOneIssue "tool" 20 ∧
    searchTools regOneIssue "tool" 20 = [⟨"tool_a", "issue helper"⟩] :=
  ⟨(searchTools_matches_spec regOneIssue "tool" 20 (by decide)).1, by decide⟩

lemma zodTo_strV3 (cs : List ZCheck) :
    zodToJsonSchema (encodeV3 (.cstr cs)) =
      applyStringChecks [("type", .str "string")] (some cs) := by
  simp [encodeV3, zodToJsonSchema, rawTypeName, ZodDef.typeName, ZodDef.typeTag,
    ZodDef.description, typeTagStr, normalizeZodTypeName, v3ToV4, List.find?,
    buildSchemaForType]

lemma zodTo_strV4 (cs : List ZCheck) :
    zodToJsonSchema (encodeV4 (.cstr cs)) =
      applyStringChecks [("type", .str "string")] (some cs) := by
  simp [encodeV4, zodToJsonSchema, rawTypeName, ZodDef.typeName, ZodDef.typeTag,
    ZodDef.description, typeTagStr, normalizeZodTypeName, v3ToV4, List.find?,
    buildSchemaForType]

lemma zodTo_optWrapV3 (inner : ZodVal) :
    zodToJsonSchema (optionalWrapV3 inner) =
      objMerge (zodToJsonSchema inner) [("optional", .bool true)] := by
  simp [optionalWrapV3, zodToJsonSchema, rawTypeName, ZodDef.typeName, ZodDef.typeTag,
    ZodDef.description, typeTagStr, normalizeZodTypeName, v3ToV4, List.find?,
    buildSchemaForType, handleZodWrapper]

lemma zodTo_optWrapV4 (inner : ZodVal) :
    zodToJsonSchema (optionalWrapV4 inner) =
      objMerge (zodToJsonSchema inner) [("optional", .bool true)] := by
  simp [optionalWrapV4, zodToJsonSchema, rawTypeName, ZodDef.typeName, ZodDef.typeTag,
    ZodDef.description, typeTagStr, normalizeZodTypeName, v3ToV4, List.find?,
    buildSchemaForType, handleZodWrapper]

lemma zodTo_enumV3 (lits : List String) :
    zodToJsonSchema (encodeV3 (.cenum lits)) =
      [("type", .str "string"), ("enum", .arr (lits.map .str))] := by
  simp [encodeV3, zodToJsonSchema, rawTypeName, ZodDef.typeName, ZodDef.typeTag,
    ZodDef.description, typeTagStr, normalizeZodTypeName, v3ToV4, List.find?,
    buildSchemaForType]

lemma zodTo_enumV4 (lits : List String) :
    zodToJsonSchema (encodeV4 (.cenum lits)) =
      [("type", .str "string"), ("enum", .arr (lits.map .str))] := by
  simp [encodeV4, zodToJsonSchema, rawTypeName, ZodDef.typeName, ZodDef.typeTag,
    ZodDef.description, typeTagStr, normalizeZodTypeName, v3ToV4, List.find?,
    buildSchemaForType, List.map_map]

lemma objMerge_single (a : ZRecord) (k : String) (v : JsonValue) :
    objMerge a [(k, v)] = mapSet a k v := rfl

lemma encodeV3_copt (c : SchemaConcept) :
    encodeV3 (.copt c) = optionalWrapV3 (encodeV3 c) := rfl

lemma encodeV4_copt (c : SchemaConcept) :
    encodeV4 (.copt c) = optionalWrapV4 (encodeV4 c) := rfl

/-- C8: a string schema carrying min-length and max-length checks
introspects (in either representation) to a record whose `type` is
`string` and whose `minLength`/`maxLength` are the last min/max check
values; an optional-wrapped enum yields
`{type: string, enum: lits, optional: true}` in either representation;
and in general the optional wrapper merges `optional: true` over the
inner descriptor, preserving its other keys. -/
theorem string_checks_and_optional_enum_roundtrip :
    (∀ (cs : List ZCheck) (m n : JsonValue),
      lastCheckVal "min" cs = some m → lastCheckVal "max" cs = some n →
      ∀ z ∈ [encodeV3 (.cstr cs), encodeV4 (.cstr cs)],
        mapGet (zodToJsonSchema z) "type" = some (.str "string") ∧
        mapGet (zodToJsonSchema z) "minLength" = some m ∧
        mapGet (zodToJsonSchema z) "maxLength" = some n) ∧
    (∀ lits : List String,
      ∀ z ∈ [encodeV3 (.copt (.cenum lits)), encodeV4 (.copt (.cenum lits))],
        zodToJsonSchema z =
          [("type", .str "string"), ("enum", .arr (lits.map .str)),
           ("optional", .bool true)]) ∧
    (∀ (inner : ZodVal) (key : String),
      ∀ z ∈ [optionalWrapV3 inner, optionalWrapV4 inner],
        mapGet (zodToJsonSchema z) "optional" = some (.bool true) ∧
        (key ≠ "optional" →
          mapGet (zodToJsonSchema z) key = mapGet (zodToJsonSchema inner) key)) := by
  have hmergeOpt : ∀ inner : ZodVal,
      mapGet (objMerge (zodToJsonSchema inner) [("optional", .bool true)]) "optional" =
        some (.bool true) := by
    intro inner
    rw [objMerge_single, mapGet_set_self]
  have hmergeOther : ∀ (inner : ZodVal) (key : String), key ≠ "optional" →
      mapGet (objMerge (zodToJsonSchema inner) [("optional", .bool true)]) key =
        mapGet (zodToJsonSchema inner) key := by
    intro inner key hk
    rw [objMerge_single, mapGet_set_other _ _ _ _ hk]
  have hstr : ∀ (cs : List ZCheck) (m n : JsonValue),
      lastCheckVal "min" cs = some m → lastCheckVal "max" cs = some n →
      (mapGet (applyStringChecks ([("type", JsonValue.str "string")] : ZRecord) (some cs)) "type" =
          some (JsonValue.str "string") ∧
        mapGet (applyStringChecks ([("type", JsonValue.str "string")] : ZRecord) (some cs)) "minLength" = some m ∧
        mapGet (applyStringChecks ([("type", JsonValue.str "string")] : ZRecord) (some cs)) "maxLength" = some n) := by
    intro cs m n hm hn
    rw [applyStringChecks_eq_foldl]
    refine ⟨?_, ?_, ?_⟩
    · rw [foldl_stepCheck_lookup_other cs _ "type" (by decide) (by decide)]
      rfl
    · rw [foldl_stepCheck_lookup_min, hm]
      rfl
    · rw [foldl_stepCheck_lookup_max, hn]
      rfl
  refine ⟨?_, ?_, ?_⟩
  · intro cs m n hm hn z hz
    rcases List.mem_cons.mp hz with h | h
    · rw [h, zodTo_strV3]
      exact hstr cs m n hm hn
    · have h2 : z = encodeV4 (.cstr cs) := by simpa using h
      rw [h2, zodTo_strV4]
      exact hstr cs m n hm hn
  · intro lits z hz
    have henum : objMerge
        ([("type", JsonValue.str "string"), ("enum", JsonValue.arr (lits.map JsonValue.str))] : ZRecord)
        [("optional", JsonValue.bool true)] =
        ([("type", JsonValue.str "string"), ("enum", JsonValue.arr (lits.map JsonValue.str)),
         ("optional", JsonValue.bool true)] : ZRecord) := by
      rw [objMerge_single, mapSet_eq, if_neg (by simp [mapHasKey])]
      rfl
    rcases List.mem_cons.mp hz with h | h
    · rw [h, encodeV3_copt, zodTo_optWrapV3, zodTo_enumV3, henum]
    · have h2 : z = encodeV4 (.copt (.cenum lits)) := by simpa using h
      rw [h2, encodeV4_copt, zodTo_optWrapV4, zodTo_enumV4, henum]
  · intro inner key z hz
    rcases List.mem_cons.mp hz with h | h
    · rw [h, zodTo_optWrapV3]
      exact ⟨hmergeOpt inner, fun hk => hmergeOther inner key hk⟩
    · have h2 : z = optionalWrapV4 inner := by simpa using h
      rw [h2, zodTo_optWrapV4]
      exact ⟨hmergeOpt inner, fun hk => hmergeOther inner key hk⟩

theorem string_checks_and_optional_enum_roundtrip_witness :
    mapGet (zodToJsonSchema (encodeV3 (.cstr witnessChecks))) "minLength" =
      some (.num 2) ∧
    zodToJsonSchema (encodeV4 (.copt (.cenum ["open", "closed"]))) =
      [("type", .str "string"), ("enum", .arr [.str "open", .str "closed"]),
       ("optional", .bool true)] ∧
    mapGet (zodToJsonSchema (optionalWrapV3 (encodeV3 .cbool))) "optional" =
      some (.bool true) := by
  have h := string_checks_and_optional_enum_roundtrip
  refine ⟨?_, ?_, ?_⟩
  · exact (h.1 witnessChecks (.num 2) (.num 5) rfl rfl _ (by simp)).2.1
  · exact h.2.1 ["open", "closed"] _ (by simp)
  · exact (h.2.2 (encodeV3 .cbool) "type" _ (by simp)).1

/-- C9 (counterexample): on the kind name `FooZod` the code produces
`{type: "foo"}` (first occurrence of `Zod` removed), while the claim's
prefix-stripping fallback prescribes `"foozod"`. -/
theorem fallback_strip_counterexample :
    mapGet (zodToJsonSchema fooZodVal) "type" = some (.str "foo") ∧
    specFallbackType "FooZod" = "foozod" ∧
    ("foo" : String) ≠ "foozod" := by
  refine ⟨?_, by decide, by decide⟩
  have h1 : zodToJsonSchema fooZodVal =
      [("type", .str (strToLower (replaceZod "FooZod")))] := by
    simp [fooZodVal, zodToJsonSchema, rawTypeName, ZodDef.typeName, ZodDef.typeTag,
      ZodDef.description, typeTagStr, normalizeZodTypeName, v3ToV4, List.find?,
      buildSchemaForType]
  rw [h1, show strToLower (replaceZod "FooZod") = "foo" by decide]
  rfl

lemma zodTo_withDef_lookup_type (d : ZodDef) :
    mapGet (zodToJsonSchema (.withDef d)) "type" =
      mapGet (buildSchemaForType (normalizeZodTypeName (rawTypeName d)) d) "type" := by
  simp only [zodToJsonSchema]
  cases hd : d.description with
  | none => rfl
  | some ds =>
    show mapGet (if ds = "" then buildSchemaForType (normalizeZodTypeName (rawTypeName d)) d
        else mapSet (buildSchemaForType (normalizeZodTypeName (rawTypeName d)) d)
          "description" (JsonValue.str ds)) "type" =
      mapGet (buildSchemaForType (normalizeZodTypeName (rawTypeName d)) d) "type"
    by_cases he : ds = ""
    · rw [if_pos he]
    · rw [if_neg he, mapGet_set_other]
      decide

/-- C9 (amended): the introspector is total and never raises; a value
with no recognizable definition yields `{type: "unknown"}` (likewise a
definition whose tag normalizes to nothing), and a definition whose
normalized kind is not in the canonical vocabulary falls back to
`{type: <kind name with the first occurrence of "Zod" removed,
lowercased>}`. -/
theorem introspector_totality_fallback :
    (zodToJsonSchema .noDef = [("type", .str "unknown")]) ∧
    (∀ d : ZodDef, normalizeZodTypeName (rawTypeName d) = none →
      mapGet (zodToJsonSchema (.withDef d)) "type" = some (.str "unknown")) ∧
    (∀ (d : ZodDef) (k : String), normalizeZodTypeName (rawTypeName d) = some k →
      k ∉ canonicalKinds →
      mapGet (zodToJsonSchema (.withDef d)) "type" =
        some (.str (strToLower (replaceZod k)))) := by
  refine ⟨by simp [zodToJsonSchema], ?_, ?_⟩
  · intro d hn
    rw [zodTo_withDef_lookup_type, hn]
    cases d with
    | mk tnm tt dsc cks vls ents inner elem shp dfl opts mnl mxl =>
      simp only [buildSchemaForType.eq_def]
      simp
      rfl
  · intro d k hk hmem
    simp only [canonicalKinds, List.mem_cons, List.not_mem_nil, or_false] at hmem
    push_neg at hmem
    obtain ⟨h1, h2, h3, h4, h5, h6, h7, h8, h9, h10⟩ := hmem
    rw [zodTo_withDef_lookup_type, hk]
    cases d with
    | mk tnm tt dsc cks vls ents inner elem shp dfl opts mnl mxl =>
      simp only [buildSchemaForType.eq_def, Option.some.injEq]
      rw [if_neg h1, if_neg h2, if_neg h3, if_neg h4, if_neg h5, if_neg h6,
        if_neg h7, if_neg h8, if_neg h9, if_neg h10]
      rfl

theorem introspector_totality_fallback_witness :
    mapGet (zodToJsonSchema fooZodVal) "type" =
      some (.str (strToLower (replaceZod "FooZod"))) ∧
    mapGet (zodToJsonSchema (.withDef (.mk (some "") none none none none none
      none none none none none none none))) "type" = some (.str "unknown") := by
  refine ⟨?_, ?_⟩
  · exact introspector_totality_fallback.2.2
      (.mk (some "FooZod") none none none none none none none none none none none none)
      "FooZod" rfl (by decide)
  · exact introspector_totality_fallback.2.1
      (.mk (some "") none none none none none none none none none none none none) rfl

lemma zodTo_numV3 (cks : List ZCheck) :
    zodToJsonSchema (.withDef (.mk (some "ZodNumber") none none (some cks) none none none none none none none none none)) =
      handleZodNumber (some cks) := by
  simp [zodToJsonSchema, rawTypeName, ZodDef.typeName, ZodDef.typeTag,
    ZodDef.description, typeTagStr, normalizeZodTypeName, v3ToV4, List.find?,
    buildSchemaForType]

lemma zodTo_numV4 (cks : List ZCheck) :
    zodToJsonSchema (.withDef (.mk none (some (.strTag "number")) none (some cks) none none none none none none none none none)) =
      handleZodNumber (some cks) := by
  simp [zodToJsonSchema, rawTypeName, ZodDef.typeName, ZodDef.typeTag,
    ZodDef.description, typeTagStr, normalizeZodTypeName, v3ToV4, List.find?,
    buildSchemaForType]

lemma zodTo_boolV3 :
    zodToJsonSchema (.withDef (.mk (some "ZodBoolean") none none none none none none none none none none none none)) =
      [("type", .str "boolean")] := by
  simp [zodToJsonSchema, rawTypeName, ZodDef.typeName, ZodDef.typeTag,
    ZodDef.description, typeTagStr, normalizeZodTypeName, v3ToV4, List.find?,
    buildSchemaForType]

lemma zodTo_boolV4 :
    zodToJsonSchema (.withDef (.mk none (some (.strTag "boolean")) none none none none none none none none none none none)) =
      [("type", .str "boolean")] := by
  simp [zodToJsonSchema, rawTypeName, ZodDef.typeName, ZodDef.typeTag,
    ZodDef.description, typeTagStr, normalizeZodTypeName, v3ToV4, List.find?,
    buildSchemaForType]

lemma zodTo_arrV3 (z : ZodVal) (mn mx : Option Int) :
    zodToJsonSchema (.withDef (.mk (some "ZodArray") (some (.schemaTag z)) none none none none none none none none none mn mx)) =
      arrayRecord (zodToJsonSchema z) mn mx := by
  simp [zodToJsonSchema, rawTypeName, ZodDef.typeName, ZodDef.typeTag,
    ZodDef.description, typeTagStr, normalizeZodTypeName, v3ToV4, List.find?,
    buildSchemaForType, arrayRecord, handleZodArray, introspectOpt,
    introspectSlot, introspectSlotCore]

lemma zodTo_arrV4 (z : ZodVal) (mn mx : Option Int) :
    zodToJsonSchema (.withDef (.mk none (some (.strTag "array")) none none none none none (some z) none none none mn mx)) =
      arrayRecord (zodToJsonSchema z) mn mx := by
  simp [zodToJsonSchema, rawTypeName, ZodDef.typeName, ZodDef.typeTag,
    ZodDef.description, typeTagStr, normalizeZodTypeName, v3ToV4, List.find?,
    buildSchemaForType, arrayRecord, handleZodArray, introspectOpt,
    introspectSlot, introspectSlotCore]

lemma zodTo_objV3 (fs : List (String × ZodVal)) :
    zodToJsonSchema (.withDef (.mk (some "ZodObject") none none none none none none none (some (.fnShape fs)) none none none none)) =
      [("type", .str "object"), ("properties", .obj (serializeSchema fs))] := by
  simp [zodToJsonSchema, rawTypeName, ZodDef.typeName, ZodDef.typeTag,
    ZodDef.description, typeTagStr, normalizeZodTypeName, v3ToV4, List.find?,
    buildSchemaForType, handleZodObject.eq_def]

lemma zodTo_objV4 (fs : List (String × ZodVal)) :
    zodToJsonSchema (.withDef (.mk none (some (.strTag "object")) none none none none none none (some (.valShape fs)) none none none none)) =
      [("type", .str "object"), ("properties", .obj (serializeSchema fs))] := by
  simp [zodToJsonSchema, rawTypeName, ZodDef.typeName, ZodDef.typeTag,
    ZodDef.description, typeTagStr, normalizeZodTypeName, v3ToV4, List.find?,
    buildSchemaForType, handleZodObject.eq_def]

lemma zodTo_defaultV3 (z : ZodVal) (dv : JsonValue) :
    zodToJsonSchema (.withDef (.mk (some "ZodDefault") none none none none none (some z) none none (some dv) none none none)) =
      objMerge (zodToJsonSchema z) [("default", dv)] := by
  simp [zodToJsonSchema, rawTypeName, ZodDef.typeName, ZodDef.typeTag,
    ZodDef.description, typeTagStr, normalizeZodTypeName, v3ToV4, List.find?,
    buildSchemaForType, handleZodWrapper]

lemma zodTo_defaultV4 (z : ZodVal) (dv : JsonValue) :
    zodToJsonSchema (.withDef (.mk none (some (.strTag "default")) none none none none (some z) none none (some dv) none none none)) =
      objMerge (zodToJsonSchema z) [("default", dv)] := by
  simp [zodToJsonSchema, rawTypeName, ZodDef.typeName, ZodDef.typeTag,
    ZodDef.description, typeTagStr, normalizeZodTypeName, v3ToV4, List.find?,
    buildSchemaForType, handleZodWrapper]

lemma zodTo_nullV3 (z : ZodVal) :
    zodToJsonSchema (.withDef (.mk (some "ZodNullable") none none none none none (some z) none none none none none none)) =
      objMerge (zodToJsonSchema z) [("nullable", .bool true)] := by
  simp [zodToJsonSchema, rawTypeName, ZodDef.typeName, ZodDef.typeTag,
    ZodDef.description, typeTagStr, normalizeZodTypeName, v3ToV4, List.find?,
    buildSchemaForType, handleZodWrapper]

lemma zodTo_nullV4 (z : ZodVal) :
    zodToJsonSchema (.withDef (.mk none (some (.strTag "nullable")) none none none none (some z) none none none none none none)) =
      objMerge (zodToJsonSchema z) [("nullable", .bool true)] := by
  simp [zodToJsonSchema, rawTypeName, ZodDef.typeName, ZodDef.typeTag,
    ZodDef.description, typeTagStr, normalizeZodTypeName, v3ToV4, List.find?,
    buildSchemaForType, handleZodWrapper]

lemma zodTo_unionV3 (os : List ZodVal) :
    zodToJsonSchema (.withDef (.mk (some "ZodUnion") none none none none none none none none none (some os) none none)) =
      [("oneOf", .arr (mapOptions os))] := by
  simp [zodToJsonSchema, rawTypeName, ZodDef.typeName, ZodDef.typeTag,
    ZodDef.description, typeTagStr, normalizeZodTypeName, v3ToV4, List.find?,
    buildSchemaForType]

lemma zodTo_unionV4 (os : List ZodVal) :
    zodToJsonSchema (.withDef (.mk none (some (.strTag "union")) none none none none none none none none (some os) none none)) =
      [("oneOf", .arr (mapOptions os))] := by
  simp [zodToJsonSchema, rawTypeName, ZodDef.typeName, ZodDef.typeTag,
    ZodDef.description, typeTagStr, normalizeZodTypeName, v3ToV4, List.find?,
    buildSchemaForType]

lemma encodeAux : ∀ n : Nat,
    (∀ c : SchemaConcept, sizeOf c ≤ n → conceptWF c = true →
      zodToJsonSchema (encodeV3 c) = zodToJsonSchema (encodeV4 c)) ∧
    (∀ fs : List (String × SchemaConcept), sizeOf fs ≤ n → conceptWFFields fs = true →
      serializeSchema (encodeV3Fields fs) = serializeSchema (encodeV4Fields fs)) ∧
    (∀ os : List SchemaConcept, sizeOf os ≤ n → conceptWFList os = true →
      mapOptions (encodeV3List os) = mapOptions (encodeV4List os)) := by
  intro n
  induction n with
  | zero =>
    refine ⟨?_, ?_, ?_⟩
    · intro c hc _
      exact absurd hc (by cases c <;> simp)
    · intro fs hf _
      exact absurd hf (by cases fs <;> simp)
    · intro os ho _
      exact absurd ho (by cases os <;> simp)
  | succ n ih =>
    obtain ⟨ih1, ih2, ih3⟩ := ih
    refine ⟨?_, ?_, ?_⟩
    · intro c hc hwf
      cases c with
      | cstr cks =>
        rw [zodTo_strV3, zodTo_strV4]
      | cnum cks =>
        simp only [encodeV3, encodeV4]
        rw [zodTo_numV3, zodTo_numV4]
      | cbool =>
        simp only [encodeV3, encodeV4]
        rw [zodTo_boolV3, zodTo_boolV4]
      | carr item mn mx =>
        have hs : sizeOf item ≤ n := by simp at hc; omega
        have hw : conceptWF item = true := by simpa [conceptWF] using hwf
        simp only [encodeV3, encodeV4]
        rw [zodTo_arrV3, zodTo_arrV4, ih1 item hs hw]
      | cobj fields =>
        have hs : sizeOf fields ≤ n := by simp at hc; omega
        have hw : conceptWFFields fields = true := by simpa [conceptWF] using hwf
        simp only [encodeV3, encodeV4]
        rw [zodTo_objV3, zodTo_objV4, ih2 fields hs hw]
      | copt inner =>
        have hs : sizeOf inner ≤ n := by simp at hc; omega
        have hw : conceptWF inner = true := by simpa [conceptWF] using hwf
        rw [encodeV3_copt, encodeV4_copt, zodTo_optWrapV3, zodTo_optWrapV4,
          ih1 inner hs hw]
      | cdefault inner dv =>
        have hs : sizeOf inner ≤ n := by simp at hc; omega
        have hw : conceptWF inner = true := by simpa [conceptWF] using hwf
        simp only [encodeV3, encodeV4]
        rw [zodTo_defaultV3, zodTo_defaultV4, ih1 inner hs hw]
      | cenum lits =>
        rw [zodTo_enumV3, zodTo_enumV4]
      | cunion opts =>
        have hs : sizeOf opts ≤ n := by simp at hc; omega
        have hw : conceptWFList opts = true := by simpa [conceptWF] using hwf
        simp only [encodeV3, encodeV4]
        rw [zodTo_unionV3, zodTo_unionV4, ih3 opts hs hw]
      | cnullable inner =>
        have hs : sizeOf inner ≤ n := by simp at hc; omega
        have hw : conceptWF inner = true := by simpa [conceptWF] using hwf
        simp only [encodeV3, encodeV4]
        rw [zodTo_nullV3, zodTo_nullV4, ih1 inner hs hw]
    · intro fs hf hwf
      cases fs with
      | nil =>
        simp only [encodeV3Fields, encodeV4Fields]
      | cons p rest =>
        obtain ⟨k, c⟩ := p
        have hs1 : sizeOf c ≤ n := by simp at hf; omega
        have hs2 : sizeOf rest ≤ n := by simp at hf; omega
        have hw : conceptWF c = true ∧ conceptWFFields rest = true := by
          simpa [conceptWFFields, Bool.and_eq_true] using hwf
        simp only [encodeV3Fields, encodeV4Fields, serializeSchema]
        rw [ih1 c hs1 hw.1, ih2 rest hs2 hw.2]
    · intro os ho hwf
      cases os with
      | nil =>
        simp only [encodeV3List, encodeV4List]
      | cons c rest =>
        have hs1 : sizeOf c ≤ n := by simp at ho; omega
        have hs2 : sizeOf rest ≤ n := by simp at ho; omega
        have hw : conceptWF c = true ∧ conceptWFList rest = true := by
          simpa [conceptWFList, Bool.and_eq_true] using hwf
        simp only [encodeV3List, encodeV4List, mapOptions]
        rw [ih1 c hs1 hw.1, ih3 rest hs2 hw.2]

/-- C3: the schema introspector is representation-invariant — every
well-formed schema concept produces the identical descriptor whether
encoded in the legacy representation (tag in `typeName`, item schema
in the `type` slot, callable shape, enum `values`) or the current one
(lowercase tag in the `type` slot, item schema in `element`, stored
shape, enum `entries`). -/
theorem zodToJsonSchema_version_invariant (c : SchemaConcept)
    (h : conceptWF c = true) :
    zodToJsonSchema (encodeV3 c) = zodToJsonSchema (encodeV4 c) :=
  (encodeAux (sizeOf c)).1 c le_rfl h

theorem zodToJsonSchema_version_invariant_witness :
    conceptWF (SchemaConcept.copt (.cenum ["open", "closed"])) = true ∧
    zodToJsonSchema (encodeV3 (SchemaConcept.copt (.cenum ["open", "closed"]))) =
      zodToJsonSchema (encodeV4 (SchemaConcept.copt (.cenum ["open", "closed"]))) :=
  ⟨by decide, zodToJsonSchema_version_invariant
    (SchemaConcept.copt (.cenum ["open", "closed"])) (by decide)⟩
